import Mathlib

/-!
# Alternating disks: `BubbleSort/disks.hpp`

A shallow embedding of the row of disks (`disk_state`), of the result record
(`sorted_disks`) and of the two sorting algorithms `sort_left_to_right` and
`sort_lawnmower`, followed by the properties proved about them.

Conventions of the embedding.

* `std::vector<disk_color>` is a `List disk_color`, and the `std::stringstream` of
  `to_string` is a `String`.
* A failed `assert` and an exception thrown by `vector::at` are both the value
  `none`; code that can fail returns an `Option`.
* Building the vector of the constructor can fail: above `max_size()` with
  `std::length_error`, and above the memory at hand with `std::bad_alloc`.  The memory
  is not part of the source, so the constructor takes it as a parameter, the `capacity`.
* `size_t` is 64 bits wide and `unsigned` is 32 bits wide.  Arithmetic that can
  leave the range is reduced explicitly: `light_count * 2` in the constructor,
  `_colors.size() - 1` in `is_alternating` (the function `size_sub`), and
  `swap_count++` in the sorters.
  Index arithmetic inside the loops (`j + 1`, `n - i - 1`, `i - 1`) is guarded
  by the loop conditions and stays in range, so it is plain `Nat` arithmetic.
* A `for` loop is a function recursive on the number of iterations that are
  left; the loop condition of the source is tested at every iteration.  `swap`
  never changes the length of the row, which is what makes the iteration count
  known when the loop is entered.
-/

/-- State of one disk, either light or dark. -/
inductive disk_color where
  | DISK_LIGHT
  | DISK_DARK
deriving DecidableEq, Repr

open disk_color

/-- Number of values of a `size_t`. -/
def SIZE_MOD : Nat := 2 ^ 64

/-- Number of values of an `unsigned`. -/
def UINT_MOD : Nat := 2 ^ 32

/-- The value of `max_size()` of a `std::vector<disk_color>`: `PTRDIFF_MAX` divided by
the 4 bytes of a `disk_color`. -/
def MAX_SIZE : Nat := 2 ^ 61 - 1

/-- Subtraction of two `size_t` values, `a - b` computed modulo `2^64`: the plain
difference when there is no borrow, and `a + 2^64 - b` when there is one. -/
def size_sub (a b : Nat) : Nat :=
  if b ≤ a then a - b else a + SIZE_MOD - b

/-- Data structure for the state of one row of disks. -/
structure disk_state where
  _colors : List disk_color
deriving DecidableEq, Repr

/-- How a loop whose body contains a `return` ends: with the returned value, or by
falling through with the current value of the local flag. -/
inductive loop_exit where
  | returned (value : Bool)
  | finished (flag : Bool)
deriving DecidableEq, Repr

namespace disk_state

def total_count (s : disk_state) : Nat :=
  s._colors.length

def dark_count (s : disk_state) : Nat :=
  s.total_count / 2

def light_count (s : disk_state) : Nat :=
  s.dark_count

def is_index (s : disk_state) (i : Nat) : Bool :=
  decide (i < s.total_count)

/-- The member `get`: asserts `is_index(index)`, then reads `_colors[index]`. -/
def get (s : disk_state) (index : Nat) : Option disk_color :=
  if s.is_index index then s._colors[index]? else none

/-- The member `swap`: asserts both indices, then exchanges the two cells. -/
def swap (s : disk_state) (left_index : Nat) : Option disk_state :=
  if s.is_index left_index then
    let right_index := left_index + 1
    if s.is_index right_index then
      match s._colors[left_index]?, s._colors[right_index]? with
      | some a, some b => some ⟨(s._colors.set left_index b).set right_index a⟩
      | _, _ => none
    else none
  else none

/-- The range-based loop of `to_string` over the colours that are left, with the flag
`first` and the contents `ss` of the string stream. -/
def to_string_loop : List disk_color → Bool → String → String
  | [], _, ss => ss
  | color :: rest, first, ss =>
    let ss1 := if !first then ss ++ " " else ss
    let ss2 := if color = DISK_LIGHT then ss1 ++ "L" else ss1 ++ "D"
    to_string_loop rest false ss2

/-- The member `to_string`. -/
def to_string (s : disk_state) : String :=
  to_string_loop s._colors true ""

/-- The constructor's loop `for (i = 1; i < _colors.size(); i += 2) _colors[i] = DISK_DARK`. -/
def ctor_loop : Nat → Nat → List disk_color → List disk_color
  | 0, _, cs => cs
  | rem + 1, i, cs =>
    if i < cs.length then ctor_loop rem (i + 2) (cs.set i DISK_DARK) else cs

/-- The constructor `disk_state(size_t light_count)`.  The argument is a `size_t`, and
so is the product `light_count * 2`.  The member initialiser `_colors(light_count * 2,
DISK_LIGHT)` throws `std::length_error` when that size exceeds `max_size()`, and
`std::bad_alloc` when the memory cannot be obtained: `capacity` is the largest number of
disks for which the allocation succeeds where the program runs.  The assertion and the
loop come after the vector has been built. -/
def new (capacity light_count : Nat) : Option disk_state :=
  if light_count * 2 % SIZE_MOD ≤ MAX_SIZE ∧ light_count * 2 % SIZE_MOD ≤ capacity then
    let s : disk_state := ⟨List.replicate (light_count * 2 % SIZE_MOD) DISK_LIGHT⟩
    if s.dark_count > 0 then
      some ⟨ctor_loop (s._colors.length / 2) 1 s._colors⟩
    else none
  else none

/-- The loop of `is_alternating`, started at index `i` with `rem` iterations left below
the bound `bound` (the value of `_colors.size() - 1`). -/
def is_alternating_loop (s : disk_state) (bound : Nat) : Nat → Nat → Option Bool
  | 0, _ => some true
  | rem + 1, i =>
    if i < bound then
      match s._colors[i]? with
      | none => none
      | some DISK_LIGHT =>
        match s._colors[i + 1]? with
        | none => none
        | some DISK_DARK => is_alternating_loop s bound rem (i + 1)
        | some DISK_LIGHT => some false
      | some DISK_DARK =>
        match s._colors[i + 1]? with
        | none => none
        | some DISK_LIGHT => is_alternating_loop s bound rem (i + 1)
        | some DISK_DARK => some false
    else some true

/-- The member `is_alternating`.  The bound `_colors.size() - 1` is a `size_t`. -/
def is_alternating (s : disk_state) : Option Bool :=
  let bound := size_sub s._colors.length 1
  is_alternating_loop s bound bound 0

/-- First loop of `is_sorted`: indices `i < size / 2` must hold light. -/
def is_sorted_first (s : disk_state) : Nat → Nat → Bool → Option loop_exit
  | 0, _, isS => some (loop_exit.finished isS)
  | rem + 1, i, isS =>
    if i < s._colors.length / 2 then
      match s._colors[i]? with
      | none => none
      | some DISK_LIGHT => is_sorted_first s rem (i + 1) true
      | some DISK_DARK => some (loop_exit.returned false)
    else some (loop_exit.finished isS)

/-- Second loop of `is_sorted`: indices from `size / 2` on must hold dark. -/
def is_sorted_second (s : disk_state) : Nat → Nat → Bool → Option loop_exit
  | 0, _, isS => some (loop_exit.finished isS)
  | rem + 1, i, isS =>
    if i < s._colors.length then
      match s._colors[i]? with
      | none => none
      | some DISK_DARK => is_sorted_second s rem (i + 1) true
      | some DISK_LIGHT => some (loop_exit.returned false)
    else some (loop_exit.finished isS)

/-- The member `is_sorted`. -/
def is_sorted (s : disk_state) : Option Bool :=
  match is_sorted_first s (s._colors.length / 2) 0 false with
  | none => none
  | some (loop_exit.returned b) => some b
  | some (loop_exit.finished isS) =>
    match is_sorted_second s (s._colors.length - s._colors.length / 2)
        (s._colors.length / 2) isS with
    | none => none
    | some (loop_exit.returned b) => some b
    | some (loop_exit.finished isS) => some isS

end disk_state

/-- Data structure for the output of the alternating disks problem. -/
structure sorted_disks where
  _after : disk_state
  _swap_count : Nat
deriving DecidableEq, Repr

namespace sorted_disks

def after (r : sorted_disks) : disk_state :=
  r._after

def swap_count (r : sorted_disks) : Nat :=
  r._swap_count

end sorted_disks

/-- One comparison of a forward scan, shared by both sorters:
`if (get(j) == DISK_DARK && get(j+1) == DISK_LIGHT) { swap(j); swap_count++; }`.
The right operand of `&&` is evaluated only when the left one holds. -/
def forward_step (j : Nat) (st : disk_state × Nat) : Option (disk_state × Nat) :=
  match st.1.get j with
  | none => none
  | some DISK_LIGHT => some st
  | some DISK_DARK =>
    match st.1.get (j + 1) with
    | none => none
    | some DISK_DARK => some st
    | some DISK_LIGHT =>
      match st.1.swap j with
      | none => none
      | some s => some (s, (st.2 + 1) % UINT_MOD)

/-- One comparison of the backward scan of the lawnmower:
`if (get(i) == DISK_LIGHT && get(i-1) == DISK_DARK) { swap(i-1); swapCount++; }`. -/
def backward_step (i : Nat) (st : disk_state × Nat) : Option (disk_state × Nat) :=
  match st.1.get i with
  | none => none
  | some DISK_DARK => some st
  | some DISK_LIGHT =>
    match st.1.get (i - 1) with
    | none => none
    | some DISK_LIGHT => some st
    | some DISK_DARK =>
      match st.1.swap (i - 1) with
      | none => none
      | some s => some (s, (st.2 + 1) % UINT_MOD)

/-- Inner loop of `sort_left_to_right`:
`for (j = 0; j < new_list.total_count() - i - 1; j++)`, at index `j`. -/
def left_to_right_inner (i : Nat) : Nat → Nat → disk_state × Nat → Option (disk_state × Nat)
  | 0, _, st => some st
  | rem + 1, j, st =>
    if j < st.1.total_count - i - 1 then
      match forward_step j st with
      | none => none
      | some st1 => left_to_right_inner i rem (j + 1) st1
    else some st

/-- Outer loop of `sort_left_to_right`:
`for (i = 0; i < new_list.total_count() - 1; i++)`, at index `i`. -/
def left_to_right_outer : Nat → Nat → disk_state × Nat → Option (disk_state × Nat)
  | 0, _, st => some st
  | rem + 1, i, st =>
    if i < st.1.total_count - 1 then
      match left_to_right_inner i (st.1.total_count - i - 1) 0 st with
      | none => none
      | some st1 => left_to_right_outer rem (i + 1) st1
    else some st

/-- Algorithm that sorts disks using the left-to-right algorithm. -/
def sort_left_to_right (before : disk_state) : Option sorted_disks :=
  match before.is_alternating with
  | some true =>
    match left_to_right_outer (before.total_count - 1) 0 (before, 0) with
    | none => none
    | some st => some ⟨st.1, st.2⟩
  | _ => none

/-- Forward loop of `sort_lawnmower`:
`for (i = 0; i < new_list.total_count() - 1; i++)`, at index `i`. -/
def lawnmower_forward : Nat → Nat → disk_state × Nat → Option (disk_state × Nat)
  | 0, _, st => some st
  | rem + 1, i, st =>
    if i < st.1.total_count - 1 then
      match forward_step i st with
      | none => none
      | some st1 => lawnmower_forward rem (i + 1) st1
    else some st

/-- Backward loop of `sort_lawnmower`:
`for (i = new_list.total_count() - 1; i > 0; i--)`, at index `i`. -/
def lawnmower_backward : Nat → Nat → disk_state × Nat → Option (disk_state × Nat)
  | 0, _, st => some st
  | rem + 1, i, st =>
    if i > 0 then
      match backward_step i st with
      | none => none
      | some st1 => lawnmower_backward rem (i - 1) st1
    else some st

/-- Outer loop of `sort_lawnmower`:
`for (k = 0; k < (new_list.total_count() - 1) / 2; k++)`, at index `k`. -/
def lawnmower_outer : Nat → Nat → disk_state × Nat → Option (disk_state × Nat)
  | 0, _, st => some st
  | rem + 1, k, st =>
    if k < (st.1.total_count - 1) / 2 then
      match lawnmower_forward (st.1.total_count - 1) 0 st with
      | none => none
      | some st1 =>
        match lawnmower_backward (st1.1.total_count - 1) (st1.1.total_count - 1) st1 with
        | none => none
        | some st2 => lawnmower_outer rem (k + 1) st2
    else some st

/-- Algorithm that sorts disks using the lawnmower algorithm. -/
def sort_lawnmower (before : disk_state) : Option sorted_disks :=
  match before.is_alternating with
  | some true =>
    match lawnmower_outer ((before.total_count - 1) / 2) 0 (before, 0) with
    | none => none
    | some st => some ⟨st.1, st.2⟩
  | _ => none

/-! ## Functions on lists used to describe what the loops compute -/

/-- The only other colour. -/
def disk_color.other : disk_color → disk_color
  | DISK_LIGHT => DISK_DARK
  | DISK_DARK => DISK_LIGHT

/-- The row after `steps` comparisons of a scan that starts at the head of the list and
carries the colour `heavy` over the other colour. -/
def scan (heavy : disk_color) : Nat → List disk_color → List disk_color
  | 0, l => l
  | _ + 1, [] => []
  | _ + 1, [x] => [x]
  | r + 1, x :: y :: t =>
    if x = heavy ∧ y = heavy.other then y :: scan heavy r (x :: t)
    else x :: scan heavy r (y :: t)

/-- The number of exchanges made by `scan`. -/
def scan_swaps (heavy : disk_color) : Nat → List disk_color → Nat
  | 0, _ => 0
  | _ + 1, [] => 0
  | _ + 1, [_] => 0
  | r + 1, x :: y :: t =>
    if x = heavy ∧ y = heavy.other then scan_swaps heavy r (x :: t) + 1
    else scan_swaps heavy r (y :: t)

/-- The list `h o h o ... h o` of `b` pairs. -/
def pairs (h o : disk_color) : Nat → List disk_color
  | 0 => []
  | b + 1 => h :: o :: pairs h o b

/-- The list `o^a (h o)^b h^c`. -/
def pattern (o h : disk_color) (a b c : Nat) : List disk_color :=
  List.replicate a o ++ (pairs h o b ++ List.replicate c h)

/-- Total number of exchanges of `p` scans that start from a row with `b` pairs:
`b + (b - 1) + ...`, `p` terms, stopping at zero. -/
def swaps_total : Nat → Nat → Nat
  | 0, _ => 0
  | _ + 1, 0 => 0
  | b + 1, p + 1 => (b + 1) + swaps_total b p

/-- Every two neighbours of the list differ. -/
def alternates : List disk_color → Bool
  | [] => true
  | [_] => true
  | x :: y :: t => decide (x ≠ y) && alternates (y :: t)

/-- The alternating list of length `n` whose first colour is `x`. -/
def alternating_from : disk_color → Nat → List disk_color
  | _, 0 => []
  | x, n + 1 => x :: alternating_from x.other n

/-- Whether every element of the list is the colour `x`. -/
def all_color (x : disk_color) (l : List disk_color) : Bool :=
  l.all (fun y => decide (y = x))

/-- Number of inversions of a row: the pairs of positions `i < j` with a dark disk at `i`
and a light disk at `j`. -/
def inversions (l : List disk_color) : Nat :=
  ((List.range l.length).map (fun j =>
    ((List.range j).filter (fun i =>
      decide (l[i]? = some DISK_DARK ∧ l[j]? = some DISK_LIGHT))).length)).sum

/-- The letter that stands for a colour in `to_string`. -/
def disk_color.letter : disk_color → Char
  | DISK_LIGHT => 'L'
  | DISK_DARK => 'D'

/-- A space and a letter for every colour of the list. -/
def spaced : List disk_color → List Char
  | [] => []
  | c :: rest => ' ' :: c.letter :: spaced rest

/-- The alternating row of 185366 disks that `new(92683)` builds. -/
def big_row : disk_state :=
  ⟨pairs DISK_LIGHT DISK_DARK 92683⟩

/-- Rows that can be obtained from `new(k)`, built with some amount of memory, by
successful calls of `swap`. -/
inductive reachable (k : Nat) : disk_state → Prop where
  | init (s : disk_state) (capacity : Nat) : disk_state.new capacity k = some s → reachable k s
  | step (s t : disk_state) (i : Nat) : reachable k s → s.swap i = some t → reachable k t

/-! ## Elementary facts about `get` and `swap` -/

/-- The function `size_sub` is subtraction modulo `2^64` on the range of `size_t`. -/
theorem size_sub_eq_mod (a b : Nat) (ha : a < SIZE_MOD) (hb : b < SIZE_MOD) :
    size_sub a b = (a + SIZE_MOD - b) % SIZE_MOD := by
  unfold size_sub
  unfold SIZE_MOD at ha hb ⊢
  split <;> omega

theorem get_eq (l : List disk_color) (i : Nat) :
    (disk_state.mk l).get i = l[i]? := by
  unfold disk_state.get disk_state.is_index disk_state.total_count
  by_cases h : i < l.length
  · simp [h]
  · simp [h]
    omega

theorem get_append (pre t : List disk_color) (x : disk_color) (j : Nat) (hj : j = pre.length) :
    (disk_state.mk (pre ++ x :: t)).get j = some x := by
  subst hj
  rw [get_eq, List.getElem?_append_right (le_refl _)]
  simp

theorem get_append_succ (pre t : List disk_color) (x y : disk_color) (j : Nat)
    (hj : j = pre.length) :
    (disk_state.mk (pre ++ x :: y :: t)).get (j + 1) = some y := by
  subst hj
  rw [get_eq, List.getElem?_append_right (by omega)]
  simp

theorem swap_append (pre t : List disk_color) (x y : disk_color) (j : Nat)
    (hj : j = pre.length) :
    (disk_state.mk (pre ++ x :: y :: t)).swap j = some ⟨pre ++ y :: x :: t⟩ := by
  subst hj
  have h1 : (pre ++ x :: y :: t)[pre.length]? = some x := by
    rw [List.getElem?_append_right (le_refl _)]; simp
  have h2 : (pre ++ x :: y :: t)[pre.length + 1]? = some y := by
    rw [List.getElem?_append_right (by omega)]; simp
  unfold disk_state.swap disk_state.is_index disk_state.total_count
  simp only [h1, h2]
  simp [List.set_append_right]

theorem swap_length (s t : disk_state) (i : Nat) (h : s.swap i = some t) :
    t.total_count = s.total_count := by
  unfold disk_state.swap at h
  split at h
  · simp only at h
    split at h
    · split at h
      · simp only [Option.some.injEq] at h
        subst h
        simp [disk_state.total_count]
      · simp at h
    · simp at h
  · simp at h

/-! ## The scans of the sorters as functions on lists -/

theorem forward_step_eq (pre t : List disk_color) (x y : disk_color) (j c : Nat)
    (hj : j = pre.length) :
    forward_step j (⟨pre ++ x :: y :: t⟩, c) =
      some (if x = DISK_DARK ∧ y = DISK_LIGHT then (⟨pre ++ y :: x :: t⟩, (c + 1) % UINT_MOD)
        else (⟨pre ++ x :: y :: t⟩, c)) := by
  unfold forward_step
  simp only [get_append pre (y :: t) x j hj, get_append_succ pre t x y j hj,
    swap_append pre t x y j hj]
  cases x <;> cases y <;> simp

theorem backward_step_eq (pre t : List disk_color) (x y : disk_color) (i c : Nat)
    (hi : i = pre.length + 1) :
    backward_step i (⟨pre ++ x :: y :: t⟩, c) =
      some (if y = DISK_LIGHT ∧ x = DISK_DARK then (⟨pre ++ y :: x :: t⟩, (c + 1) % UINT_MOD)
        else (⟨pre ++ x :: y :: t⟩, c)) := by
  subst hi
  unfold backward_step
  simp only [Nat.add_sub_cancel, get_append pre (y :: t) x pre.length rfl,
    get_append_succ pre t x y pre.length rfl, swap_append pre t x y pre.length rfl]
  cases x <;> cases y <;> simp

theorem add_add_mod (c x y z : Nat) :
    (((c + x) % UINT_MOD + y) % UINT_MOD + z) % UINT_MOD = (c + (x + (y + z))) % UINT_MOD := by
  unfold UINT_MOD
  omega

theorem add_one_mod (c s : Nat) :
    ((c + 1) % UINT_MOD + s) % UINT_MOD = (c + (s + 1)) % UINT_MOD := by
  unfold UINT_MOD
  omega

/-- The inner loop of `sort_left_to_right`, entered at index `j` with `rem` comparisons
to go, scans the part of the row that starts at `j`. -/
theorem left_to_right_inner_eq (i : Nat) :
    ∀ (rem : Nat) (pre rest : List disk_color) (c : Nat),
      rest.length = rem + i + 1 → c < UINT_MOD →
      left_to_right_inner i rem pre.length (⟨pre ++ rest⟩, c) =
        some (⟨pre ++ scan DISK_DARK rem rest⟩, (c + scan_swaps DISK_DARK rem rest) % UINT_MOD) := by
  intro rem
  induction rem with
  | zero =>
    intro pre rest c _ hc
    simp [left_to_right_inner, scan, scan_swaps, Nat.mod_eq_of_lt hc]
  | succ rem ih =>
    intro pre rest c hlen hc
    match rest, hlen with
    | [], hlen => simp at hlen
    | [_], hlen => simp at hlen
    | x :: y :: t, hlen =>
      have hcond : pre.length < (pre.length + (t.length + 1 + 1)) - i - 1 := by
        simp only [List.length_cons] at hlen
        omega
      unfold left_to_right_inner
      simp only [disk_state.total_count, List.length_append, List.length_cons, hcond, if_true]
      rw [forward_step_eq pre t x y pre.length c rfl]
      by_cases hxy : x = DISK_DARK ∧ y = DISK_LIGHT
      · obtain ⟨hx, hy⟩ := hxy
        subst hx hy
        have h := ih (pre ++ [DISK_LIGHT]) (DISK_DARK :: t) ((c + 1) % UINT_MOD)
          (by simp only [List.length_cons] at hlen ⊢; omega)
          (Nat.mod_lt _ (by unfold UINT_MOD; omega))
        simp only [List.length_append, List.length_singleton, List.append_assoc,
          List.singleton_append] at h
        simp only [and_self, if_true, h, scan, scan_swaps, disk_color.other, add_one_mod]
      · have h := ih (pre ++ [x]) (y :: t) c
          (by simp only [List.length_cons] at hlen ⊢; omega) hc
        simp only [List.length_append, List.length_singleton, List.append_assoc,
          List.singleton_append] at h
        have hxy2 : ¬ (x = DISK_DARK ∧ y = DISK_DARK.other) := by
          simpa [disk_color.other] using hxy
        simp only [hxy, if_false, h, scan, scan_swaps, hxy2]

theorem lawnmower_forward_eq_inner :
    ∀ (rem i : Nat) (st : disk_state × Nat),
      lawnmower_forward rem i st = left_to_right_inner 0 rem i st := by
  intro rem
  induction rem with
  | zero => intro i st; simp [lawnmower_forward, left_to_right_inner]
  | succ rem ih =>
    intro i st
    unfold lawnmower_forward left_to_right_inner
    simp only [Nat.sub_zero]
    split
    · cases forward_step i st with
      | none => rfl
      | some st1 => exact ih (i + 1) st1
    · rfl

/-- The backward loop of the lawnmower, entered at index `rem`, scans the first
`rem + 1` disks from the right: on the reversed prefix it is a scan that carries light. -/
theorem lawnmower_backward_eq :
    ∀ (rem : Nat) (front post : List disk_color) (c : Nat),
      front.length = rem + 1 → c < UINT_MOD →
      lawnmower_backward rem rem (⟨front.reverse ++ post⟩, c) =
        some (⟨(scan DISK_LIGHT rem front).reverse ++ post⟩,
          (c + scan_swaps DISK_LIGHT rem front) % UINT_MOD) := by
  intro rem
  induction rem with
  | zero =>
    intro front post c _ hc
    simp [lawnmower_backward, scan, scan_swaps, Nat.mod_eq_of_lt hc]
  | succ rem ih =>
    intro front post c hlen hc
    match front, hlen with
    | [], hlen => simp at hlen
    | [_], hlen => simp at hlen
    | y :: x :: r, hlen =>
      have hr : r.length = rem := by simpa using hlen
      have hshape : (y :: x :: r).reverse ++ post = r.reverse ++ x :: y :: post := by simp
      unfold lawnmower_backward
      simp only [gt_iff_lt, Nat.zero_lt_succ, if_true, Nat.add_sub_cancel]
      rw [hshape, backward_step_eq r.reverse post x y (rem + 1) c (by simp [hr])]
      by_cases hxy : y = DISK_LIGHT ∧ x = DISK_DARK
      · obtain ⟨hy, hx⟩ := hxy
        subst hx hy
        have h := ih (DISK_LIGHT :: r) (DISK_DARK :: post) ((c + 1) % UINT_MOD)
          (by simp [hr]) (Nat.mod_lt _ (by unfold UINT_MOD; omega))
        simp only [List.reverse_cons, List.append_assoc, List.singleton_append] at h
        simp only [and_self, if_true, h, scan, scan_swaps, disk_color.other, add_one_mod,
          List.reverse_cons, List.append_assoc, List.singleton_append]
      · have h := ih (x :: r) (y :: post) c (by simp [hr]) hc
        simp only [List.reverse_cons, List.append_assoc, List.singleton_append] at h
        have hxy2 : ¬ (y = DISK_LIGHT ∧ x = DISK_LIGHT.other) := by
          simpa [disk_color.other] using hxy
        simp only [hxy, if_false, h, scan, scan_swaps, hxy2,
          List.reverse_cons, List.append_assoc, List.singleton_append]

/-! ## Scans of the rows `o^a (h o)^b h^c` -/

theorem other_ne (h : disk_color) : h.other ≠ h := by
  cases h <;> simp [disk_color.other]

theorem scan_nil (h : disk_color) (r : Nat) : scan h r [] = [] := by
  cases r <;> rfl

theorem scan_swaps_nil (h : disk_color) (r : Nat) : scan_swaps h r [] = 0 := by
  cases r <;> rfl

theorem scan_replicate_other (h : disk_color) :
    ∀ (a r : Nat) (l : List disk_color),
      scan h r (List.replicate a h.other ++ l) = List.replicate a h.other ++ scan h (r - a) l := by
  intro a
  induction a with
  | zero => intro r l; simp
  | succ a ih =>
    intro r l
    cases r with
    | zero => simp [scan]
    | succ r =>
      have h1 := ih r l
      simp only [List.replicate_succ, List.cons_append, Nat.add_sub_add_right]
      rw [← h1]
      cases hl : List.replicate a h.other ++ l with
      | nil =>
        simp [scan, scan_nil]
      | cons y t =>
        simp [scan, other_ne h]

theorem scan_swaps_replicate_other (h : disk_color) :
    ∀ (a r : Nat) (l : List disk_color),
      scan_swaps h r (List.replicate a h.other ++ l) = scan_swaps h (r - a) l := by
  intro a
  induction a with
  | zero => intro r l; simp
  | succ a ih =>
    intro r l
    cases r with
    | zero => simp [scan_swaps]
    | succ r =>
      have h1 := ih r l
      simp only [List.replicate_succ, List.cons_append, Nat.add_sub_add_right]
      rw [← h1]
      cases hl : List.replicate a h.other ++ l with
      | nil =>
        simp [scan_swaps, scan_swaps_nil]
      | cons y t =>
        simp [scan_swaps, other_ne h]

theorem scan_replicate_heavy (h : disk_color) :
    ∀ (m r : Nat), scan h r (List.replicate m h) = List.replicate m h := by
  intro m
  induction m with
  | zero => intro r; simp [scan_nil]
  | succ m ih =>
    intro r
    cases r with
    | zero => simp [scan]
    | succ r =>
      cases m with
      | zero => simp [scan]
      | succ m =>
        have h1 := ih r
        simp only [List.replicate_succ] at h1 ⊢
        simp [scan, (other_ne h).symm, h1]

theorem scan_swaps_replicate_heavy (h : disk_color) :
    ∀ (m r : Nat), scan_swaps h r (List.replicate m h) = 0 := by
  intro m
  induction m with
  | zero => intro r; simp [scan_swaps_nil]
  | succ m ih =>
    intro r
    cases r with
    | zero => simp [scan_swaps]
    | succ r =>
      cases m with
      | zero => simp [scan_swaps]
      | succ m =>
        have h1 := ih r
        simp only [List.replicate_succ] at h1 ⊢
        simp [scan_swaps, (other_ne h).symm, h1]

/-- A heavy disk that arrives in front of `(h o)^b h^c` is carried to the end of the
pairs: every light disk moves one place to the left. -/
theorem scan_carry (h : disk_color) (c : Nat) :
    ∀ (b r : Nat), 2 * b ≤ r →
      scan h r (h :: (pairs h h.other b ++ List.replicate c h)) =
        pairs h h.other b ++ List.replicate (c + 1) h := by
  intro b
  induction b with
  | zero =>
    intro r _
    have := scan_replicate_heavy h (c + 1) r
    simpa [pairs, List.replicate_succ] using this
  | succ b ih =>
    intro r hr
    obtain ⟨r, rfl⟩ : ∃ r2, r = r2 + 2 := ⟨r - 2, by omega⟩
    have h1 := ih r (by omega)
    simp [pairs, scan, (other_ne h).symm, h1]

theorem scan_swaps_carry (h : disk_color) (c : Nat) :
    ∀ (b r : Nat), 2 * b ≤ r →
      scan_swaps h r (h :: (pairs h h.other b ++ List.replicate c h)) = b := by
  intro b
  induction b with
  | zero =>
    intro r _
    have := scan_swaps_replicate_heavy h (c + 1) r
    simpa [pairs, List.replicate_succ] using this
  | succ b ih =>
    intro r hr
    obtain ⟨r, rfl⟩ : ∃ r2, r = r2 + 2 := ⟨r - 2, by omega⟩
    have h1 := ih r (by omega)
    simp [pairs, scan_swaps, (other_ne h).symm, h1]

theorem pattern_length (o h : disk_color) (a b c : Nat) :
    (pattern o h a b c).length = a + 2 * b + c := by
  have hp : ∀ n, (pairs h o n).length = 2 * n := by
    intro n
    induction n with
    | zero => rfl
    | succ n ih => simp [pairs, ih]; omega
  simp [pattern, hp]
  omega

theorem replicate_snoc_append (o : disk_color) (a : Nat) (l : List disk_color) :
    List.replicate a o ++ o :: l = List.replicate (a + 1) o ++ l := by
  rw [List.replicate_succ', List.append_assoc]
  rfl

/-- One scan of a row `o^a (h o)^b h^c` that is long enough to reach the last pair moves
every light disk of the pairs one place: the result is `o^(a+1) (h o)^(b-1) h^(c+1)`,
and the row is unchanged when there is no pair. -/
theorem scan_pattern (h : disk_color) (a b c r : Nat) (hr : b = 0 ∨ a + 2 * b ≤ r + 1) :
    scan h r (pattern h.other h a b c) =
      pattern h.other h (a + min b 1) (b - 1) (c + min b 1) := by
  cases b with
  | zero =>
    simp [pattern, pairs, scan_replicate_other, scan_replicate_heavy]
  | succ b =>
    have hr2 : a + 2 * (b + 1) ≤ r + 1 := by omega
    obtain ⟨q, rfl⟩ : ∃ q, r = a + q + 1 := ⟨r - a - 1, by omega⟩
    have hc := scan_carry h c b q (by omega)
    have hm : min (b + 1) 1 = 1 := by omega
    simp only [pattern, pairs, List.cons_append, scan_replicate_other, hm, Nat.add_sub_cancel]
    rw [show a + q + 1 - a = q + 1 by omega]
    simp only [scan, true_and, if_true, hc]
    exact replicate_snoc_append _ _ _

theorem scan_swaps_pattern (h : disk_color) (a b c r : Nat) (hr : b = 0 ∨ a + 2 * b ≤ r + 1) :
    scan_swaps h r (pattern h.other h a b c) = b := by
  cases b with
  | zero =>
    simp [pattern, pairs, scan_swaps_replicate_other, scan_swaps_replicate_heavy]
  | succ b =>
    have hr2 : a + 2 * (b + 1) ≤ r + 1 := by omega
    obtain ⟨q, rfl⟩ : ∃ q, r = a + q + 1 := ⟨r - a - 1, by omega⟩
    have hc := scan_swaps_carry h c b q (by omega)
    simp only [pattern, pairs, List.cons_append, scan_swaps_replicate_other]
    rw [show a + q + 1 - a = q + 1 by omega]
    simp only [scan_swaps, true_and, if_true, hc]

theorem pairs_snoc (h o : disk_color) (b : Nat) :
    pairs h o b ++ [h, o] = h :: o :: pairs h o b := by
  induction b with
  | zero => rfl
  | succ b ih => simp [pairs, ih]

theorem pairs_reverse (h o : disk_color) (b : Nat) :
    (pairs h o b).reverse = pairs o h b := by
  induction b with
  | zero => rfl
  | succ b ih =>
    simp only [pairs, List.reverse_cons, ih, List.append_assoc, List.singleton_append]
    exact pairs_snoc o h b

theorem pattern_reverse (o h : disk_color) (a b c : Nat) :
    (pattern o h a b c).reverse = pattern h o c b a := by
  simp [pattern, pairs_reverse]

theorem swaps_total_succ (b p : Nat) :
    swaps_total b (p + 1) = b + swaps_total (b - 1) p := by
  cases b with
  | zero => cases p <;> simp [swaps_total]
  | succ b => simp [swaps_total]

theorem swaps_total_zero (b : Nat) : swaps_total b 0 = 0 := by
  cases b <;> rfl

/-! ## The outer loops on the rows `L^a (D L)^b D^c` -/

theorem left_to_right_inner_pattern (i a b c cnt : Nat) (hc : cnt < UINT_MOD)
    (hi : b = 0 ∨ i ≤ c) (hn : i + 1 ≤ a + 2 * b + c) :
    left_to_right_inner i (a + 2 * b + c - i - 1) 0 (⟨pattern DISK_LIGHT DISK_DARK a b c⟩, cnt) =
      some (⟨pattern DISK_LIGHT DISK_DARK (a + min b 1) (b - 1) (c + min b 1)⟩,
        (cnt + b) % UINT_MOD) := by
  have h := left_to_right_inner_eq i (a + 2 * b + c - i - 1) []
    (pattern DISK_LIGHT DISK_DARK a b c) cnt (by rw [pattern_length]; omega) hc
  have h1 := scan_pattern DISK_DARK a b c (a + 2 * b + c - i - 1) (by omega)
  have h2 := scan_swaps_pattern DISK_DARK a b c (a + 2 * b + c - i - 1) (by omega)
  simp only [disk_color.other] at h1 h2
  simpa [h1, h2] using h

/-- The outer loop of `sort_left_to_right` on a row `L^a (D L)^b D^c`: every pass that
finds a pair left moves one more light disk to the front block. -/
theorem left_to_right_outer_pattern :
    ∀ (rem i a b c cnt : Nat), cnt < UINT_MOD → (b = 0 ∨ i ≤ c) →
      i + rem + 1 ≤ a + 2 * b + c →
      left_to_right_outer rem i (⟨pattern DISK_LIGHT DISK_DARK a b c⟩, cnt) =
        some (⟨pattern DISK_LIGHT DISK_DARK (a + min b rem) (b - rem) (c + min b rem)⟩,
          (cnt + swaps_total b rem) % UINT_MOD) := by
  intro rem
  induction rem with
  | zero =>
    intro i a b c cnt hc _ _
    simp [left_to_right_outer, swaps_total_zero, Nat.mod_eq_of_lt hc]
  | succ rem ih =>
    intro i a b c cnt hc hi hn
    unfold left_to_right_outer
    have hcond : i < a + 2 * b + c - 1 := by omega
    simp only [disk_state.total_count, pattern_length, hcond, if_true]
    rw [left_to_right_inner_pattern i a b c cnt hc hi (by omega)]
    simp only
    rw [ih (i + 1) (a + min b 1) (b - 1) (c + min b 1) ((cnt + b) % UINT_MOD)
      (Nat.mod_lt _ (by unfold UINT_MOD; omega)) (by omega) (by omega)]
    have e1 : a + min b 1 + min (b - 1) rem = a + min b (rem + 1) := by omega
    have e2 : b - 1 - rem = b - (rem + 1) := by omega
    have e3 : c + min b 1 + min (b - 1) rem = c + min b (rem + 1) := by omega
    rw [e1, e2, e3, swaps_total_succ, Nat.mod_add_mod, Nat.add_assoc]

theorem lawnmower_forward_pattern (a b c cnt : Nat) (hc : cnt < UINT_MOD)
    (hn : 1 ≤ a + 2 * b + c) :
    lawnmower_forward (a + 2 * b + c - 1) 0 (⟨pattern DISK_LIGHT DISK_DARK a b c⟩, cnt) =
      some (⟨pattern DISK_LIGHT DISK_DARK (a + min b 1) (b - 1) (c + min b 1)⟩,
        (cnt + b) % UINT_MOD) := by
  rw [lawnmower_forward_eq_inner]
  exact left_to_right_inner_pattern 0 a b c cnt hc (by omega) (by omega)

theorem lawnmower_backward_pattern (a b c cnt : Nat) (hc : cnt < UINT_MOD)
    (hn : 1 ≤ a + 2 * b + c) :
    lawnmower_backward (a + 2 * b + c - 1) (a + 2 * b + c - 1)
        (⟨pattern DISK_LIGHT DISK_DARK a b c⟩, cnt) =
      some (⟨pattern DISK_LIGHT DISK_DARK (a + min b 1) (b - 1) (c + min b 1)⟩,
        (cnt + b) % UINT_MOD) := by
  have h := lawnmower_backward_eq (a + 2 * b + c - 1) (pattern DISK_DARK DISK_LIGHT c b a) []
    cnt (by rw [pattern_length]; omega) hc
  have h1 := scan_pattern DISK_LIGHT c b a (a + 2 * b + c - 1) (by omega)
  have h2 := scan_swaps_pattern DISK_LIGHT c b a (a + 2 * b + c - 1) (by omega)
  simp only [disk_color.other] at h1 h2
  rw [h1, h2, pattern_reverse, pattern_reverse] at h
  simpa using h

/-- The outer loop of `sort_lawnmower` on a row `L^a (D L)^b D^c`: a pass is two scans,
and each of them moves one more light disk to the front block while a pair is left. -/
theorem lawnmower_outer_pattern :
    ∀ (rem k a b c cnt : Nat), cnt < UINT_MOD → 1 ≤ a + 2 * b + c →
      k + rem = (a + 2 * b + c - 1) / 2 →
      lawnmower_outer rem k (⟨pattern DISK_LIGHT DISK_DARK a b c⟩, cnt) =
        some (⟨pattern DISK_LIGHT DISK_DARK (a + min b (2 * rem)) (b - 2 * rem)
              (c + min b (2 * rem))⟩,
          (cnt + swaps_total b (2 * rem)) % UINT_MOD) := by
  intro rem
  induction rem with
  | zero =>
    intro k a b c cnt hc _ _
    simp [lawnmower_outer, swaps_total_zero, Nat.mod_eq_of_lt hc]
  | succ rem ih =>
    intro k a b c cnt hc hn hk
    unfold lawnmower_outer
    have hcond : k < (a + 2 * b + c - 1) / 2 := by omega
    have hpos : 0 < UINT_MOD := by unfold UINT_MOD; omega
    simp only [disk_state.total_count, pattern_length, hcond, if_true]
    rw [lawnmower_forward_pattern a b c cnt hc hn]
    simp only [pattern_length]
    rw [lawnmower_backward_pattern (a + min b 1) (b - 1) (c + min b 1) ((cnt + b) % UINT_MOD)
      (Nat.mod_lt _ hpos) (by omega)]
    simp only
    rw [ih (k + 1) (a + min b 1 + min (b - 1) 1) (b - 1 - 1) (c + min b 1 + min (b - 1) 1)
      (((cnt + b) % UINT_MOD + (b - 1)) % UINT_MOD) (Nat.mod_lt _ hpos) (by omega) (by omega)]
    have e1 : a + min b 1 + min (b - 1) 1 + min (b - 1 - 1) (2 * rem)
        = a + min b (2 * (rem + 1)) := by omega
    have e2 : b - 1 - 1 - 2 * rem = b - 2 * (rem + 1) := by omega
    have e3 : c + min b 1 + min (b - 1) 1 + min (b - 1 - 1) (2 * rem)
        = c + min b (2 * (rem + 1)) := by omega
    have e4 : 2 * (rem + 1) = 2 * rem + 1 + 1 := by omega
    rw [e1, e2, e3]
    rw [e4, swaps_total_succ b, swaps_total_succ (b - 1), add_add_mod]

/-! ## The constructor -/

theorem ctor_loop_eq :
    ∀ (rem : Nat) (pre : List disk_color),
      disk_state.ctor_loop rem (pre.length + 1) (pre ++ List.replicate (2 * rem) DISK_LIGHT) =
        pre ++ pairs DISK_LIGHT DISK_DARK rem := by
  intro rem
  induction rem with
  | zero => intro pre; simp [disk_state.ctor_loop, pairs]
  | succ rem ih =>
    intro pre
    have hrep : List.replicate (2 * (rem + 1)) DISK_LIGHT =
        DISK_LIGHT :: DISK_LIGHT :: List.replicate (2 * rem) DISK_LIGHT := by
      rw [show 2 * (rem + 1) = 2 * rem + 1 + 1 by omega]
      rfl
    have hset : (pre ++ DISK_LIGHT :: DISK_LIGHT :: List.replicate (2 * rem) DISK_LIGHT).set
        (pre.length + 1) DISK_DARK =
        (pre ++ [DISK_LIGHT, DISK_DARK]) ++ List.replicate (2 * rem) DISK_LIGHT := by
      simp [List.set_append_right]
    have h := ih (pre ++ [DISK_LIGHT, DISK_DARK])
    simp only [List.length_append, List.length_cons, List.length_nil] at h
    unfold disk_state.ctor_loop
    rw [hrep, hset]
    simp only [List.length_append, List.length_cons, List.length_replicate]
    rw [if_pos (by omega), h]
    simp [pairs]

/-- What the constructor builds: `light_count * 2` is computed modulo `2^64`, so the row
has `light_count mod 2^63` light-dark pairs; the vector cannot be built when that size is
above `max_size()` or above the capacity, and the assertion fails when it is zero. -/
theorem new_eq (capacity k : Nat) :
    disk_state.new capacity k =
      if 0 < k % 2 ^ 63 ∧ 2 * (k % 2 ^ 63) ≤ MAX_SIZE ∧ 2 * (k % 2 ^ 63) ≤ capacity
      then some ⟨pairs DISK_LIGHT DISK_DARK (k % 2 ^ 63)⟩ else none := by
  have h1 : k * 2 % SIZE_MOD = 2 * (k % 2 ^ 63) := by unfold SIZE_MOD; omega
  have h2 := ctor_loop_eq (k % 2 ^ 63) []
  simp only [List.length_nil, Nat.zero_add, List.nil_append] at h2
  unfold disk_state.new
  simp only [disk_state.dark_count, disk_state.total_count, List.length_replicate, h1]
  rw [show 2 * (k % 2 ^ 63) / 2 = k % 2 ^ 63 by omega, h2]
  by_cases hA : 2 * (k % 2 ^ 63) ≤ MAX_SIZE ∧ 2 * (k % 2 ^ 63) ≤ capacity
  · rw [if_pos hA]
    by_cases hB : 0 < k % 2 ^ 63
    · rw [if_pos hB, if_pos ⟨hB, hA⟩]
    · rw [if_neg hB, if_neg (fun h => hB h.1)]
  · rw [if_neg hA, if_neg (fun h => hA h.2)]

/-- When the constructor returns a row, it is `(L D)^m` with `m = light_count mod 2^63`,
`m ≥ 1`, and `2 * m` disks were within `max_size()` and within the capacity. -/
theorem new_some (capacity k : Nat) (s : disk_state) (h : disk_state.new capacity k = some s) :
    0 < k % 2 ^ 63 ∧ 2 * (k % 2 ^ 63) ≤ MAX_SIZE ∧ 2 * (k % 2 ^ 63) ≤ capacity ∧
      s = ⟨pairs DISK_LIGHT DISK_DARK (k % 2 ^ 63)⟩ := by
  rw [new_eq] at h
  by_cases hA : 0 < k % 2 ^ 63 ∧ 2 * (k % 2 ^ 63) ≤ MAX_SIZE ∧ 2 * (k % 2 ^ 63) ≤ capacity
  · rw [if_pos hA] at h
    simp only [Option.some.injEq] at h
    exact ⟨hA.1, hA.2.1, hA.2.2, h.symm⟩
  · rw [if_neg hA] at h
    exact absurd h (by simp)

theorem cons_pairs (h o : disk_color) (m : Nat) :
    o :: pairs h o m = pairs o h m ++ [o] := by
  induction m with
  | zero => rfl
  | succ m ih => simp [pairs, ih]

theorem pairs_eq_pattern (m : Nat) :
    pairs DISK_LIGHT DISK_DARK (m + 1) = pattern DISK_LIGHT DISK_DARK 1 m 1 := by
  simp [pairs, pattern, cons_pairs]

theorem pairs_eq_pattern_dark (m : Nat) :
    pairs DISK_DARK DISK_LIGHT m = pattern DISK_LIGHT DISK_DARK 0 m 0 := by
  simp [pattern]

/-! ## `is_alternating` -/

theorem is_alternating_loop_eq (bound : Nat) :
    ∀ (rem : Nat) (pre rest : List disk_color),
      rest.length = rem + 1 → bound = pre.length + rem →
      disk_state.is_alternating_loop ⟨pre ++ rest⟩ bound rem pre.length =
        some (alternates rest) := by
  intro rem
  induction rem with
  | zero =>
    intro pre rest hlen _
    match rest, hlen with
    | [x], _ => simp [disk_state.is_alternating_loop, alternates]
  | succ rem ih =>
    intro pre rest hlen hb
    match rest, hlen with
    | x :: y :: t, hlen =>
      have h := ih (pre ++ [x]) (y :: t) (by simpa using hlen)
        (by simp only [List.length_append, List.length_singleton]; omega)
      simp only [List.length_append, List.length_singleton, List.append_assoc,
        List.singleton_append] at h
      have h1 : (pre ++ x :: y :: t)[pre.length]? = some x := by
        rw [List.getElem?_append_right (le_refl _)]; simp
      have h2 : (pre ++ x :: y :: t)[pre.length + 1]? = some y := by
        rw [List.getElem?_append_right (by omega)]; simp
      unfold disk_state.is_alternating_loop
      rw [if_pos (by omega)]
      simp only [h1, h2, h]
      cases x <;> cases y <;> simp [alternates]

/-- On a non-empty row `is_alternating` returns whether all neighbours differ. -/
theorem is_alternating_eq (l : List disk_color) (h1 : 1 ≤ l.length) :
    disk_state.is_alternating ⟨l⟩ = some (alternates l) := by
  have hb : size_sub l.length 1 = l.length - 1 := by
    unfold size_sub
    rw [if_pos h1]
  have h := is_alternating_loop_eq (l.length - 1) (l.length - 1) [] l (by omega) (by simp)
  unfold disk_state.is_alternating
  simp only [hb]
  simpa using h

theorem alternates_eq_from :
    ∀ (t : List disk_color) (x : disk_color), alternates (x :: t) = true →
      x :: t = alternating_from x (t.length + 1) := by
  intro t
  induction t with
  | nil => intro x _; rfl
  | cons y t ih =>
    intro x h
    simp only [alternates, Bool.and_eq_true, decide_eq_true_eq] at h
    have hy : y = x.other := by
      cases x <;> cases y <;> simp_all [disk_color.other]
    have h3 := ih y h.2
    show x :: y :: t = x :: alternating_from x.other (t.length + 1)
    rw [← hy, ← h3]

theorem alternating_from_even (x : disk_color) (k : Nat) :
    alternating_from x (2 * k) = pairs x x.other k := by
  induction k with
  | zero => rfl
  | succ k ih =>
    have hx : x.other.other = x := by cases x <;> rfl
    rw [show 2 * (k + 1) = 2 * k + 1 + 1 by omega]
    simp [alternating_from, pairs, hx, ih]

/-- An alternating row of `2 * k` disks is `(L D)^k` or `(D L)^k`. -/
theorem alternates_even (l : List disk_color) (k : Nat) (hl : l.length = 2 * k)
    (h : alternates l = true) :
    l = pairs DISK_LIGHT DISK_DARK k ∨ l = pairs DISK_DARK DISK_LIGHT k := by
  match l, hl, h with
  | [], hl, _ =>
    have hk : k = 0 := by simpa using hl.symm
    subst hk
    left; rfl
  | x :: t, hl, h =>
    have h1 := alternates_eq_from t x h
    have h2 : t.length + 1 = 2 * k := by simpa using hl
    rw [h2, alternating_from_even] at h1
    cases x with
    | DISK_LIGHT => left; simpa [disk_color.other] using h1
    | DISK_DARK => right; simpa [disk_color.other] using h1

theorem alternates_pairs (h : disk_color) (m : Nat) :
    alternates (pairs h h.other m) = true ∧ alternates (h.other :: pairs h h.other m) = true := by
  induction m with
  | zero => simp [pairs, alternates]
  | succ m ih =>
    have hne := other_ne h
    simp [pairs, alternates, ih.2, hne, hne.symm]

/-! ## `is_sorted` -/

theorem is_sorted_first_eq :
    ∀ (rem : Nat) (pre rest : List disk_color) (isS : Bool),
      pre.length + rem = (pre ++ rest).length / 2 →
      disk_state.is_sorted_first ⟨pre ++ rest⟩ rem pre.length isS =
        some (if all_color DISK_LIGHT (rest.take rem) = true
          then loop_exit.finished (isS || decide (0 < rem)) else loop_exit.returned false) := by
  intro rem
  induction rem with
  | zero =>
    intro pre rest isS _
    simp [disk_state.is_sorted_first, all_color]
  | succ rem ih =>
    intro pre rest isS hlen
    match rest, hlen with
    | [], hlen =>
      simp only [List.append_nil, List.length_nil] at hlen
      omega
    | x :: t, hlen =>
      simp only [List.length_append, List.length_cons] at hlen
      have h := ih (pre ++ [x]) t true (by
        simp only [List.length_append, List.length_cons, List.length_nil]
        omega)
      simp only [List.length_append, List.length_singleton, List.append_assoc,
        List.singleton_append] at h
      have h1 : (pre ++ x :: t)[pre.length]? = some x := by
        rw [List.getElem?_append_right (le_refl _)]; simp
      unfold disk_state.is_sorted_first
      rw [if_pos (by simp only [List.length_append, List.length_cons]; omega)]
      simp only [h1]
      cases x with
      | DISK_LIGHT =>
        simp only [h]
        simp [all_color]
      | DISK_DARK =>
        simp [all_color]

theorem is_sorted_second_eq :
    ∀ (rem : Nat) (pre rest : List disk_color) (isS : Bool),
      rest.length = rem →
      disk_state.is_sorted_second ⟨pre ++ rest⟩ rem pre.length isS =
        some (if all_color DISK_DARK rest = true
          then loop_exit.finished (isS || decide (0 < rem)) else loop_exit.returned false) := by
  intro rem
  induction rem with
  | zero =>
    intro pre rest isS hlen
    have : rest = [] := List.length_eq_zero.mp hlen
    subst this
    simp [disk_state.is_sorted_second, all_color]
  | succ rem ih =>
    intro pre rest isS hlen
    match rest, hlen with
    | x :: t, hlen =>
      have h := ih (pre ++ [x]) t true (by simpa using hlen)
      simp only [List.length_append, List.length_singleton, List.append_assoc,
        List.singleton_append] at h
      have h1 : (pre ++ x :: t)[pre.length]? = some x := by
        rw [List.getElem?_append_right (le_refl _)]; simp
      unfold disk_state.is_sorted_second
      rw [if_pos (by simp)]
      simp only [h1]
      cases x with
      | DISK_DARK =>
        simp only [h]
        simp [all_color]
      | DISK_LIGHT =>
        simp [all_color]

/-- What `is_sorted` computes: the row is not empty, its first half is all light and the
rest is all dark. -/
theorem is_sorted_eq (l : List disk_color) :
    disk_state.is_sorted ⟨l⟩ =
      some (decide (0 < l.length) && all_color DISK_LIGHT (l.take (l.length / 2))
        && all_color DISK_DARK (l.drop (l.length / 2))) := by
  have h1 := is_sorted_first_eq (l.length / 2) [] l false (by simp)
  have h2 := fun isS => is_sorted_second_eq (l.length - l.length / 2) (l.take (l.length / 2))
    (l.drop (l.length / 2)) isS (by simp)
  have hlen : (l.take (l.length / 2)).length = l.length / 2 := by
    simp only [List.length_take]
    omega
  simp only [List.nil_append, List.length_nil] at h1
  simp only [List.take_append_drop, hlen] at h2
  unfold disk_state.is_sorted
  simp only [h1]
  by_cases hA : all_color DISK_LIGHT (l.take (l.length / 2)) = true
  · simp only [hA, if_true, h2, Bool.false_or, Bool.and_true]
    by_cases hB : all_color DISK_DARK (l.drop (l.length / 2)) = true
    · simp only [hB, if_true, Bool.and_true]
      congr 1
      by_cases hn : 0 < l.length / 2
      · have : 0 < l.length := by omega
        simp [hn, this]
      · by_cases hm : 0 < l.length
        · have : 0 < l.length - l.length / 2 := by omega
          simp [hm, this]
        · have : ¬ 0 < l.length - l.length / 2 := by omega
          simp [hn, hm, this]
    · simp [hB]
  · simp [hA]

theorem all_color_replicate (x : disk_color) (n : Nat) :
    all_color x (List.replicate n x) = true := by
  simp [all_color]

theorem is_sorted_blocks (k : Nat) (hk : 1 ≤ k) :
    disk_state.is_sorted ⟨pattern DISK_LIGHT DISK_DARK k 0 k⟩ = some true := by
  have hlen : (pattern DISK_LIGHT DISK_DARK k 0 k).length / 2 = k := by
    rw [pattern_length]; omega
  have hpos : 0 < (pattern DISK_LIGHT DISK_DARK k 0 k).length := by
    rw [pattern_length]; omega
  rw [is_sorted_eq, hlen]
  have ht : (pattern DISK_LIGHT DISK_DARK k 0 k).take k = List.replicate k DISK_LIGHT := by
    unfold pattern
    exact List.take_left' (by simp)
  have hd : (pattern DISK_LIGHT DISK_DARK k 0 k).drop k = List.replicate k DISK_DARK := by
    unfold pattern
    rw [List.drop_left' (by simp)]
    simp [pairs]
  rw [ht, hd, all_color_replicate, all_color_replicate]
  simp [hpos]

theorem all_color_eq_replicate (x : disk_color) (l : List disk_color)
    (h : all_color x l = true) : l = List.replicate l.length x := by
  rw [List.eq_replicate_iff]
  refine ⟨rfl, ?_⟩
  intro b hb
  simp only [all_color, List.all_eq_true, decide_eq_true_eq] at h
  exact h b hb

/-- A row of `2 * k` disks that `is_sorted` accepts is `L^k D^k` with `k ≥ 1`. -/
theorem is_sorted_shape (l : List disk_color) (k : Nat) (hl : l.length = 2 * k)
    (h : disk_state.is_sorted ⟨l⟩ = some true) :
    1 ≤ k ∧ l = pattern DISK_LIGHT DISK_DARK k 0 k := by
  rw [is_sorted_eq, hl, show 2 * k / 2 = k by omega] at h
  simp only [Option.some.injEq, Bool.and_eq_true, decide_eq_true_eq] at h
  obtain ⟨⟨h0, hA⟩, hB⟩ := h
  refine ⟨by omega, ?_⟩
  have e1 := all_color_eq_replicate _ _ hA
  have e2 := all_color_eq_replicate _ _ hB
  have l1 : (l.take k).length = k := by simp only [List.length_take]; omega
  have l2 : (l.drop k).length = k := by simp only [List.length_drop]; omega
  rw [l1] at e1
  rw [l2] at e2
  rw [← List.take_append_drop k l, e1, e2]
  simp [pattern, pairs]

/-! ## The sorters on alternating rows -/

theorem swaps_total_double : ∀ (b p : Nat), b ≤ p → 2 * swaps_total b p = b * (b + 1) := by
  intro b
  induction b with
  | zero => intro p _; cases p <;> simp [swaps_total]
  | succ b ih =>
    intro p hp
    obtain ⟨q, rfl⟩ : ∃ q, p = q + 1 := ⟨p - 1, by omega⟩
    have h := ih q (by omega)
    simp only [swaps_total]
    rw [Nat.mul_add, h]
    ring

theorem swaps_total_full (b p : Nat) (h : b ≤ p) : swaps_total b p = b * (b + 1) / 2 := by
  have h2 := swaps_total_double b p h
  omega

theorem uint_mod_pos : 0 < UINT_MOD := by
  unfold UINT_MOD
  omega

theorem sort_left_to_right_pattern (a b c : Nat) (hn : 1 ≤ a + 2 * b + c)
    (halt : disk_state.is_alternating ⟨pattern DISK_LIGHT DISK_DARK a b c⟩ = some true) :
    sort_left_to_right ⟨pattern DISK_LIGHT DISK_DARK a b c⟩ =
      some ⟨⟨pattern DISK_LIGHT DISK_DARK (a + min b (a + 2 * b + c - 1))
          (b - (a + 2 * b + c - 1)) (c + min b (a + 2 * b + c - 1))⟩,
        swaps_total b (a + 2 * b + c - 1) % UINT_MOD⟩ := by
  unfold sort_left_to_right
  rw [halt]
  simp only [disk_state.total_count, pattern_length]
  rw [left_to_right_outer_pattern (a + 2 * b + c - 1) 0 a b c 0 uint_mod_pos
    (Or.inr (Nat.zero_le c)) (by omega)]
  simp

theorem sort_lawnmower_pattern (a b c : Nat) (hn : 1 ≤ a + 2 * b + c)
    (halt : disk_state.is_alternating ⟨pattern DISK_LIGHT DISK_DARK a b c⟩ = some true) :
    sort_lawnmower ⟨pattern DISK_LIGHT DISK_DARK a b c⟩ =
      some ⟨⟨pattern DISK_LIGHT DISK_DARK (a + min b (2 * ((a + 2 * b + c - 1) / 2)))
          (b - 2 * ((a + 2 * b + c - 1) / 2)) (c + min b (2 * ((a + 2 * b + c - 1) / 2)))⟩,
        swaps_total b (2 * ((a + 2 * b + c - 1) / 2)) % UINT_MOD⟩ := by
  unfold sort_lawnmower
  rw [halt]
  simp only [disk_state.total_count, pattern_length]
  rw [lawnmower_outer_pattern ((a + 2 * b + c - 1) / 2) 0 a b c 0 uint_mod_pos hn (by omega)]
  simp

theorem is_alternating_light (m : Nat) :
    disk_state.is_alternating ⟨pattern DISK_LIGHT DISK_DARK 1 m 1⟩ = some true := by
  rw [is_alternating_eq _ (by rw [pattern_length]; omega),
    ← pairs_eq_pattern]
  exact congrArg some (alternates_pairs DISK_LIGHT (m + 1)).1

theorem is_alternating_dark (m : Nat) :
    disk_state.is_alternating ⟨pattern DISK_LIGHT DISK_DARK 0 (m + 1) 0⟩ = some true := by
  rw [is_alternating_eq _ (by rw [pattern_length]; omega),
    ← pairs_eq_pattern_dark]
  exact congrArg some (alternates_pairs DISK_DARK (m + 1)).1

/-- Left-to-right on the row `(L D)^(m+1)`. -/
theorem sort_left_to_right_light (m : Nat) :
    sort_left_to_right ⟨pattern DISK_LIGHT DISK_DARK 1 m 1⟩ =
      some ⟨⟨pattern DISK_LIGHT DISK_DARK (m + 1) 0 (m + 1)⟩, (m * (m + 1) / 2) % UINT_MOD⟩ := by
  rw [sort_left_to_right_pattern 1 m 1 (by omega) (is_alternating_light m),
    swaps_total_full m _ (by omega)]
  have e1 : 1 + min m (1 + 2 * m + 1 - 1) = m + 1 := by omega
  have e2 : m - (1 + 2 * m + 1 - 1) = 0 := by omega
  rw [e1, e2]

/-- Left-to-right on the row `(D L)^(m+1)`. -/
theorem sort_left_to_right_dark (m : Nat) :
    sort_left_to_right ⟨pattern DISK_LIGHT DISK_DARK 0 (m + 1) 0⟩ =
      some ⟨⟨pattern DISK_LIGHT DISK_DARK (m + 1) 0 (m + 1)⟩,
        ((m + 1) * (m + 2) / 2) % UINT_MOD⟩ := by
  rw [sort_left_to_right_pattern 0 (m + 1) 0 (by omega) (is_alternating_dark m),
    swaps_total_full (m + 1) _ (by omega)]
  have e1 : 0 + min (m + 1) (0 + 2 * (m + 1) + 0 - 1) = m + 1 := by omega
  have e2 : m + 1 - (0 + 2 * (m + 1) + 0 - 1) = 0 := by omega
  rw [e1, e2]

/-- The lawnmower on the row `(L D)^(m+1)`: its `m` passes are `2 * m` scans. -/
theorem sort_lawnmower_light (m : Nat) :
    sort_lawnmower ⟨pattern DISK_LIGHT DISK_DARK 1 m 1⟩ =
      some ⟨⟨pattern DISK_LIGHT DISK_DARK (m + 1) 0 (m + 1)⟩, (m * (m + 1) / 2) % UINT_MOD⟩ := by
  rw [sort_lawnmower_pattern 1 m 1 (by omega) (is_alternating_light m),
    swaps_total_full m _ (by omega)]
  have e1 : 1 + min m (2 * ((1 + 2 * m + 1 - 1) / 2)) = m + 1 := by omega
  have e2 : m - 2 * ((1 + 2 * m + 1 - 1) / 2) = 0 := by omega
  rw [e1, e2]

/-- The lawnmower on the row `(D L)^(m+2)`: its `m + 1` passes are `2 * m + 2` scans. -/
theorem sort_lawnmower_dark (m : Nat) :
    sort_lawnmower ⟨pattern DISK_LIGHT DISK_DARK 0 (m + 2) 0⟩ =
      some ⟨⟨pattern DISK_LIGHT DISK_DARK (m + 2) 0 (m + 2)⟩,
        ((m + 2) * (m + 3) / 2) % UINT_MOD⟩ := by
  rw [sort_lawnmower_pattern 0 (m + 2) 0 (by omega) (is_alternating_dark (m + 1)),
    swaps_total_full (m + 2) _ (by omega)]
  have e1 : 0 + min (m + 2) (2 * ((0 + 2 * (m + 2) + 0 - 1) / 2)) = m + 2 := by omega
  have e2 : m + 2 - 2 * ((0 + 2 * (m + 2) + 0 - 1) / 2) = 0 := by omega
  rw [e1, e2]

/-- The lawnmower on the row `D L`: no pass is made. -/
theorem sort_lawnmower_dark_light :
    sort_lawnmower ⟨pattern DISK_LIGHT DISK_DARK 0 1 0⟩ =
      some ⟨⟨pattern DISK_LIGHT DISK_DARK 0 1 0⟩, 0⟩ := by
  decide

/-- An alternating row of even length at least 2 is `(L D)^(m+1)` or `(D L)^(m+1)`. -/
theorem alternating_cases (r : disk_state) (heven : r.total_count % 2 = 0)
    (h2 : 2 ≤ r.total_count)
    (halt : r.is_alternating = some true) :
    ∃ m, r.total_count = 2 * m + 2 ∧
      (r = ⟨pattern DISK_LIGHT DISK_DARK 1 m 1⟩ ∨ r = ⟨pattern DISK_LIGHT DISK_DARK 0 (m + 1) 0⟩) := by
  obtain ⟨l⟩ := r
  simp only [disk_state.total_count] at heven h2
  rw [is_alternating_eq l (by omega)] at halt
  have ha : alternates l = true := by simpa using halt
  obtain ⟨m, hm⟩ : ∃ m, l.length = 2 * (m + 1) := ⟨l.length / 2 - 1, by omega⟩
  refine ⟨m, by simp only [disk_state.total_count]; omega, ?_⟩
  rcases alternates_even l (m + 1) hm ha with h | h
  · left; rw [h, pairs_eq_pattern]
  · right; rw [h, pairs_eq_pattern_dark]

theorem count_pairs (x h o : disk_color) (b : Nat) :
    List.count x (pairs h o b) = (if h = x then b else 0) + (if o = x then b else 0) := by
  induction b with
  | zero => simp [pairs]
  | succ b ih =>
    simp only [pairs, List.count_cons, ih, beq_iff_eq]
    split <;> split <;> omega

theorem count_pattern (x o h : disk_color) (a b c : Nat) :
    List.count x (pattern o h a b c) =
      (if o = x then a + b else 0) + (if h = x then b + c else 0) := by
  simp only [pattern, List.count_append, List.count_replicate, count_pairs, beq_iff_eq]
  split <;> split <;> omega

/-- Moving `p` light disks of the pairs to the front block permutes the row. -/
theorem pattern_perm (a b c p : Nat) :
    (pattern DISK_LIGHT DISK_DARK (a + min b p) (b - p) (c + min b p)).Perm
      (pattern DISK_LIGHT DISK_DARK a b c) := by
  rw [List.perm_iff_count]
  intro x
  rw [count_pattern, count_pattern]
  split <;> split <;> omega

theorem get_blocks (k i : Nat) :
    (disk_state.mk (pattern DISK_LIGHT DISK_DARK k 0 k)).get i =
      if i < k then some DISK_LIGHT else if i < 2 * k then some DISK_DARK else none := by
  rw [get_eq]
  simp only [pattern, pairs, List.nil_append]
  by_cases h1 : i < k
  · rw [List.getElem?_append_left (by simpa using h1)]
    simp [h1, List.getElem?_replicate]
  · rw [List.getElem?_append_right (by simpa using h1)]
    simp only [List.length_replicate, List.getElem?_replicate, h1, if_false]
    by_cases h2 : i < 2 * k
    · rw [if_pos (by omega), if_pos h2]
    · rw [if_neg (by omega), if_neg h2]

theorem perm_blocks_light (m : Nat) :
    (pattern DISK_LIGHT DISK_DARK (m + 1) 0 (m + 1)).Perm (pattern DISK_LIGHT DISK_DARK 1 m 1) := by
  rw [List.perm_iff_count]
  intro x
  rw [count_pattern, count_pattern]
  split <;> split <;> omega

theorem perm_blocks_dark (m : Nat) :
    (pattern DISK_LIGHT DISK_DARK (m + 1) 0 (m + 1)).Perm
      (pattern DISK_LIGHT DISK_DARK 0 (m + 1) 0) := by
  rw [List.perm_iff_count]
  intro x
  rw [count_pattern, count_pattern]
  split <;> split <;> omega

/-- On every alternating row of even length `sort_left_to_right` returns the row
`L^k D^k`, a permutation of its input. -/
theorem left_to_right_total (r : disk_state) (heven : r.total_count % 2 = 0)
    (h2 : 2 ≤ r.total_count)
    (halt : r.is_alternating = some true) :
    ∃ res, sort_left_to_right r = some res ∧
      res.after = ⟨pattern DISK_LIGHT DISK_DARK (r.total_count / 2) 0 (r.total_count / 2)⟩ ∧
      res.after._colors.Perm r._colors := by
  obtain ⟨m, hm, hr | hr⟩ := alternating_cases r heven h2 halt
  · have hk : r.total_count / 2 = m + 1 := by omega
    rw [hk]
    subst hr
    exact ⟨_, sort_left_to_right_light m, rfl, perm_blocks_light m⟩
  · have hk : r.total_count / 2 = m + 1 := by omega
    rw [hk]
    subst hr
    exact ⟨_, sort_left_to_right_dark m, rfl, perm_blocks_dark m⟩

/-- On every alternating row of even length `sort_lawnmower` returns a permutation of
its input; the result is `L^k D^k` unless the input is the row `D L`. -/
theorem lawnmower_total (r : disk_state) (heven : r.total_count % 2 = 0)
    (h2 : 2 ≤ r.total_count)
    (halt : r.is_alternating = some true) :
    ∃ res, sort_lawnmower r = some res ∧ res.after._colors.Perm r._colors ∧
      (r ≠ ⟨pattern DISK_LIGHT DISK_DARK 0 1 0⟩ →
        res.after = ⟨pattern DISK_LIGHT DISK_DARK (r.total_count / 2) 0 (r.total_count / 2)⟩) := by
  obtain ⟨m, hm, hr | hr⟩ := alternating_cases r heven h2 halt
  · have hk : r.total_count / 2 = m + 1 := by omega
    rw [hk]
    subst hr
    exact ⟨_, sort_lawnmower_light m, perm_blocks_light m, fun _ => rfl⟩
  · have hk : r.total_count / 2 = m + 1 := by omega
    rw [hk]
    subst hr
    cases m with
    | zero =>
      exact ⟨_, sort_lawnmower_dark_light, List.Perm.refl _, fun h => absurd rfl h⟩
    | succ m =>
      exact ⟨_, sort_lawnmower_dark m, perm_blocks_dark (m + 1), fun _ => rfl⟩

theorem new_light (capacity m : Nat) (h1 : 2 * (m + 1) ≤ MAX_SIZE)
    (h2 : 2 * (m + 1) ≤ capacity) :
    disk_state.new capacity (m + 1) = some ⟨pattern DISK_LIGHT DISK_DARK 1 m 1⟩ := by
  have h : m + 1 < 2 ^ 63 := by unfold MAX_SIZE at h1; omega
  rw [new_eq, Nat.mod_eq_of_lt h, if_pos ⟨by omega, h1, h2⟩, pairs_eq_pattern]

theorem pairs_length (h o : disk_color) (n : Nat) : (pairs h o n).length = 2 * n := by
  induction n with
  | zero => rfl
  | succ n ih => simp [pairs, ih]; omega

theorem small_triangle (k : Nat) (h : k ≤ 92682) : k * (k - 1) / 2 < UINT_MOD := by
  have h1 : k * (k - 1) ≤ 92682 * 92681 := Nat.mul_le_mul h (by omega)
  unfold UINT_MOD
  omega

theorem big_row_eq : big_row = ⟨pattern DISK_LIGHT DISK_DARK 1 92682 1⟩ := by
  unfold big_row
  rw [← pairs_eq_pattern 92682]

theorem new_big_row : disk_state.new 185366 92683 = some big_row := by
  rw [big_row_eq]
  exact new_light 185366 92682 (by unfold MAX_SIZE; norm_num) (by norm_num)

theorem big_row_total_count : big_row.total_count = 185366 := by
  unfold big_row disk_state.total_count
  rw [pairs_length]

theorem big_row_alternating : big_row.is_alternating = some true := by
  rw [big_row_eq]
  exact is_alternating_light 92682

/-! ## Rows reachable from the constructor -/

theorem reachable_shape (k : Nat) (s : disk_state) (h : reachable k s) :
    1 ≤ k % 2 ^ 63 ∧ s.total_count = 2 * (k % 2 ^ 63) := by
  induction h with
  | init s capacity hs =>
    obtain ⟨hk, _, _, rfl⟩ := new_some capacity k s hs
    exact ⟨hk, by simp only [disk_state.total_count, pairs_length]⟩
  | step s t i _ hst ih =>
    exact ⟨ih.1, by rw [swap_length s t i hst]; exact ih.2⟩

theorem is_alternating_blocks (m : Nat) :
    disk_state.is_alternating ⟨pattern DISK_LIGHT DISK_DARK (m + 2) 0 (m + 2)⟩ = some false := by
  rw [is_alternating_eq _ (by rw [pattern_length]; omega)]
  simp [pattern, List.replicate_succ, alternates]

theorem sorters_none_of_not_alternating (s : disk_state) (h : s.is_alternating = some false) :
    sort_left_to_right s = none ∧ sort_lawnmower s = none := by
  unfold sort_left_to_right sort_lawnmower
  rw [h]
  exact ⟨rfl, rfl⟩

/-! ## Inversions -/

theorem inversions_inner (x : disk_color) (t : List disk_color) (j : Nat) :
    ((List.range (j + 1)).filter (fun i =>
      decide ((x :: t)[i]? = some DISK_DARK ∧ (x :: t)[j + 1]? = some DISK_LIGHT))).length =
    (if x = DISK_DARK ∧ t[j]? = some DISK_LIGHT then 1 else 0) +
    ((List.range j).filter (fun i =>
      decide (t[i]? = some DISK_DARK ∧ t[j]? = some DISK_LIGHT))).length := by
  rw [List.range_succ_eq_map, List.filter_cons, List.filter_map]
  simp only [List.getElem?_cons_zero, List.getElem?_cons_succ, Option.some.injEq,
    decide_eq_true_eq, List.length_map]
  have hf : ((fun i => decide ((x :: t)[i]? = some DISK_DARK ∧ t[j]? = some DISK_LIGHT)) ∘ Nat.succ)
      = (fun i => decide (t[i]? = some DISK_DARK ∧ t[j]? = some DISK_LIGHT)) := by
    funext i
    simp
  rw [hf]
  split <;> (simp; try omega)

theorem sum_light (t : List disk_color) :
    ((List.range t.length).map (fun j => if t[j]? = some DISK_LIGHT then 1 else 0)).sum =
      t.count DISK_LIGHT := by
  induction t with
  | nil => rfl
  | cons y t ih =>
    rw [List.length_cons, List.range_succ_eq_map, List.map_cons, List.sum_cons, List.map_map]
    have hf : ((fun j => if (y :: t)[j]? = some DISK_LIGHT then 1 else 0) ∘ Nat.succ)
        = (fun j => if t[j]? = some DISK_LIGHT then 1 else 0) := by
      funext j
      simp
    rw [hf, ih, List.count_cons]
    cases y <;> (simp; try omega)

/-- The inversions of `x :: t` are those of `t` and, when `x` is dark, one more for
every light disk of `t`. -/
theorem inversions_cons (x : disk_color) (t : List disk_color) :
    inversions (x :: t) =
      (if x = DISK_DARK then t.count DISK_LIGHT else 0) + inversions t := by
  unfold inversions
  rw [List.length_cons, List.range_succ_eq_map, List.map_cons, List.sum_cons, List.map_map]
  have hf : ((fun j => ((List.range j).filter (fun i =>
      decide ((x :: t)[i]? = some DISK_DARK ∧ (x :: t)[j]? = some DISK_LIGHT))).length) ∘ Nat.succ)
      = (fun j => (if x = DISK_DARK ∧ t[j]? = some DISK_LIGHT then 1 else 0) +
          ((List.range j).filter (fun i =>
            decide (t[i]? = some DISK_DARK ∧ t[j]? = some DISK_LIGHT))).length) := by
    funext j
    exact inversions_inner x t j
  rw [hf, List.sum_map_add]
  simp only [List.range_zero, List.filter_nil, List.length_nil, Nat.zero_add]
  congr 1
  by_cases hx : x = DISK_DARK
  · simp only [hx, true_and, if_true]
    exact sum_light t
  · simp [hx]

theorem inversions_dark_first (k : Nat) :
    2 * inversions (pairs DISK_DARK DISK_LIGHT k) = k * (k + 1) := by
  induction k with
  | zero => rfl
  | succ k ih =>
    simp only [pairs, inversions_cons, List.count_cons, count_pairs, if_true, if_false,
      beq_self_eq_true, reduceCtorEq]
    simp only [Nat.zero_add, Nat.add_zero]
    nlinarith [ih]

theorem inversions_light_first (k : Nat) :
    2 * inversions (pairs DISK_LIGHT DISK_DARK k) + 2 * k = k * (k + 1) := by
  induction k with
  | zero => rfl
  | succ k ih =>
    simp only [pairs, inversions_cons, List.count_cons, count_pairs, if_true, if_false,
      beq_self_eq_true, reduceCtorEq]
    simp only [Nat.zero_add, Nat.add_zero]
    nlinarith [ih]

theorem getElem_pairs (h o : disk_color) :
    ∀ (k i : Nat), i < 2 * k → (pairs h o k)[i]? = some (if i % 2 = 0 then h else o) := by
  intro k
  induction k with
  | zero => intro i hi; omega
  | succ k ih =>
    intro i hi
    match i with
    | 0 => simp [pairs]
    | 1 => simp [pairs]
    | i + 2 =>
      simp only [pairs, List.getElem?_cons_succ]
      rw [ih i (by omega), Nat.add_mod_right]

/-! ## Neighbours, halves and `swap`, index by index -/

theorem alternates_iff : ∀ (l : List disk_color),
    alternates l = true ↔ ∀ i, i + 1 < l.length → l[i]? ≠ l[i + 1]?
  | [] => by simp [alternates]
  | [x] => by simp [alternates]
  | x :: y :: t => by
    have ih := alternates_iff (y :: t)
    simp only [alternates, Bool.and_eq_true, decide_eq_true_eq, ih]
    constructor
    · rintro ⟨hxy, h⟩ i hi
      cases i with
      | zero => simpa using hxy
      | succ i => simpa using h i (by simpa using hi)
    · intro h
      refine ⟨by simpa using h 0 (by simp), fun i hi => ?_⟩
      simpa using h (i + 1) (by simpa using hi)

theorem all_color_iff (x : disk_color) (l : List disk_color) :
    all_color x l = true ↔ ∀ i, i < l.length → l[i]? = some x := by
  simp only [all_color, List.all_eq_true, decide_eq_true_eq]
  constructor
  · intro h i hi
    rw [List.getElem?_eq_getElem hi]
    exact congrArg some (h _ (List.getElem_mem _))
  · intro h y hy
    obtain ⟨i, hi, rfl⟩ := List.getElem_of_mem hy
    have := h i hi
    rw [List.getElem?_eq_getElem hi] at this
    exact Option.some.inj this

theorem all_color_take (x : disk_color) (l : List disk_color) (m : Nat) (hm : m ≤ l.length) :
    all_color x (l.take m) = true ↔ ∀ i, i < m → l[i]? = some x := by
  rw [all_color_iff]
  simp only [List.length_take]
  constructor
  · intro h i hi
    have := h i (by omega)
    rwa [List.getElem?_take_of_lt hi] at this
  · intro h i hi
    rw [List.getElem?_take_of_lt (by omega)]
    exact h i (by omega)

theorem all_color_drop (x : disk_color) (l : List disk_color) (m : Nat) :
    all_color x (l.drop m) = true ↔ ∀ i, m ≤ i → i < l.length → l[i]? = some x := by
  rw [all_color_iff]
  simp only [List.length_drop, List.getElem?_drop]
  constructor
  · intro h i hi1 hi2
    have := h (i - m) (by omega)
    rwa [show m + (i - m) = i by omega] at this
  · intro h i hi
    exact h (m + i) (by omega) (by omega)

theorem swap_eq (l : List disk_color) (i : Nat) (hi : i + 1 < l.length) :
    ∃ a b, l[i]? = some a ∧ l[i + 1]? = some b ∧
      (disk_state.mk l).swap i = some ⟨(l.set i b).set (i + 1) a⟩ := by
  refine ⟨l[i], l[i + 1], List.getElem?_eq_getElem _, List.getElem?_eq_getElem _, ?_⟩
  unfold disk_state.swap disk_state.is_index disk_state.total_count
  simp only [List.getElem?_eq_getElem (show i < l.length by omega),
    List.getElem?_eq_getElem hi]
  simp [hi, show i < l.length by omega]

theorem swap_none_iff (s : disk_state) (i : Nat) :
    s.swap i = none ↔ s.total_count ≤ i + 1 := by
  obtain ⟨l⟩ := s
  constructor
  · intro h
    by_contra hc
    obtain ⟨a, b, _, _, hs⟩ := swap_eq l i (by
      simp only [disk_state.total_count] at hc; omega)
    rw [hs] at h
    exact absurd h (by simp)
  · intro h
    simp only [disk_state.total_count] at h
    unfold disk_state.swap disk_state.is_index disk_state.total_count
    by_cases h1 : i < l.length
    · have h2 : ¬ (i + 1 < l.length) := by omega
      simp [h1, h2]
    · simp [h1]

/-! ## Rows reachable from the constructor, continued -/

theorem row_split (l : List disk_color) (i : Nat) (hi : i + 1 < l.length) :
    l = l.take i ++ l[i] :: l[i + 1] :: l.drop (i + 2) := by
  conv_lhs => rw [← List.take_append_drop i l]
  rw [List.drop_eq_getElem_cons (show i < l.length by omega),
    List.drop_eq_getElem_cons hi]

theorem swap_perm (s t : disk_state) (i : Nat) (h : s.swap i = some t) :
    t._colors.Perm s._colors := by
  obtain ⟨l⟩ := s
  have hi : i + 1 < l.length := by
    by_contra hc
    have := (swap_none_iff ⟨l⟩ i).mpr (by simp only [disk_state.total_count]; omega)
    rw [this] at h
    exact absurd h (by simp)
  have hl := row_split l i hi
  have hlen : i = (l.take i).length := by
    simp only [List.length_take]
    omega
  have hs := swap_append (l.take i) (l.drop (i + 2)) l[i] l[i + 1] i hlen
  rw [← hl, h] at hs
  simp only [Option.some.injEq] at hs
  subst hs
  show (l.take i ++ l[i + 1] :: l[i] :: l.drop (i + 2)).Perm l
  conv_rhs => rw [hl]
  exact List.Perm.append_left _ (List.Perm.swap _ _ _)

theorem reachable_perm (k : Nat) (s : disk_state) (h : reachable k s) :
    s._colors.Perm (pairs DISK_LIGHT DISK_DARK (k % 2 ^ 63)) := by
  induction h with
  | init s capacity hs =>
    obtain ⟨_, _, _, rfl⟩ := new_some capacity k s hs
    exact List.Perm.refl _
  | step s t i _ hst ih =>
    exact (swap_perm s t i hst).trans ih

theorem to_string_loop_data :
    ∀ (l : List disk_color) (ss : String),
      disk_state.to_string_loop l false ss = ⟨ss.data ++ spaced l⟩ := by
  intro l
  induction l with
  | nil => intro ss; simp [disk_state.to_string_loop, spaced]
  | cons c rest ih =>
    intro ss
    unfold disk_state.to_string_loop
    simp only [Bool.not_false, if_true]
    rw [ih]
    cases c <;> simp [spaced, disk_color.letter]

theorem to_string_cons (c : disk_color) (rest : List disk_color) :
    (disk_state.mk (c :: rest)).to_string = ⟨c.letter :: spaced rest⟩ := by
  unfold disk_state.to_string disk_state.to_string_loop
  simp only [Bool.not_true, if_false]
  rw [to_string_loop_data]
  cases c <;> simp [disk_color.letter]

theorem intercalate_go_data :
    ∀ (l : List disk_color) (acc : String),
      String.intercalate.go acc " " (l.map (fun c => String.singleton c.letter)) =
        ⟨acc.data ++ spaced l⟩ := by
  intro l
  induction l with
  | nil => intro acc; simp [String.intercalate.go, spaced]
  | cons c rest ih =>
    intro acc
    simp only [List.map_cons, String.intercalate.go]
    rw [ih]
    simp [spaced, String.singleton]

theorem spaced_length (l : List disk_color) : (spaced l).length = 2 * l.length := by
  induction l with
  | nil => rfl
  | cons c rest ih => simp [spaced, ih]; omega

theorem spaced_even :
    ∀ (l : List disk_color) (i : Nat), i < l.length → (spaced l)[2 * i]? = some ' ' := by
  intro l
  induction l with
  | nil => intro i hi; simp at hi
  | cons c rest ih =>
    intro i hi
    cases i with
    | zero => simp [spaced]
    | succ i =>
      rw [show 2 * (i + 1) = 2 * i + 1 + 1 by omega]
      simp only [spaced, List.getElem?_cons_succ]
      exact ih i (by simpa using hi)

theorem spaced_odd :
    ∀ (l : List disk_color) (i : Nat), (spaced l)[2 * i + 1]? = l[i]?.map disk_color.letter := by
  intro l
  induction l with
  | nil => intro i; simp [spaced]
  | cons c rest ih =>
    intro i
    cases i with
    | zero => simp [spaced]
    | succ i =>
      rw [show 2 * (i + 1) + 1 = 2 * i + 1 + 1 + 1 by omega]
      simp only [spaced, List.getElem?_cons_succ]
      exact ih i

theorem to_string_new_two :
    (disk_state.new 4 2).map disk_state.to_string = some "L D L D" := by
  decide

/-! ## The claims -/

/-- C1: on every alternating row of even length at least 2, light-first or dark-first,
`sort_left_to_right` returns a result whose row passes `is_sorted`: every index of the
first half holds light and every index of the second half holds dark. -/
theorem sort_left_to_right_sorts (r : disk_state) (heven : r.total_count % 2 = 0)
    (h2 : 2 ≤ r.total_count)
    (halt : r.is_alternating = some true) :
    ∃ res, sort_left_to_right r = some res ∧ res.after.is_sorted = some true ∧
      res.after.total_count = r.total_count ∧
      (∀ i, i < r.total_count / 2 → res.after.get i = some DISK_LIGHT) ∧
      (∀ i, r.total_count / 2 ≤ i → i < r.total_count →
        res.after.get i = some DISK_DARK) := by
  obtain ⟨res, hres, hafter, _⟩ := left_to_right_total r heven h2 halt
  refine ⟨res, hres, ?_, ?_, ?_, ?_⟩
  · rw [hafter]
    exact is_sorted_blocks _ (by omega)
  · rw [hafter]
    simp only [disk_state.total_count, pattern_length]
    simp only [disk_state.total_count] at heven
    omega
  · intro i hi
    rw [hafter, get_blocks, if_pos hi]
  · intro i hi1 hi2
    rw [hafter, get_blocks, if_neg (by omega), if_pos (by omega)]

theorem sort_left_to_right_sorts_witness :
    ∃ res, sort_left_to_right ⟨[DISK_DARK, DISK_LIGHT, DISK_DARK, DISK_LIGHT]⟩ = some res ∧
      res.after.is_sorted = some true ∧
      res.after.total_count =
        (disk_state.mk [DISK_DARK, DISK_LIGHT, DISK_DARK, DISK_LIGHT]).total_count ∧
      (∀ i, i < (disk_state.mk [DISK_DARK, DISK_LIGHT, DISK_DARK, DISK_LIGHT]).total_count / 2 →
        res.after.get i = some DISK_LIGHT) ∧
      (∀ i, (disk_state.mk [DISK_DARK, DISK_LIGHT, DISK_DARK, DISK_LIGHT]).total_count / 2 ≤ i →
        i < (disk_state.mk [DISK_DARK, DISK_LIGHT, DISK_DARK, DISK_LIGHT]).total_count →
        res.after.get i = some DISK_DARK) :=
  sort_left_to_right_sorts ⟨[DISK_DARK, DISK_LIGHT, DISK_DARK, DISK_LIGHT]⟩
    (by decide) (by decide) (by decide)

/-- C2: the row `D L` (built by `new(1)` and `swap(0)`) passes `is_alternating`, and
`sort_lawnmower` makes `(2 - 1) / 2 = 0` passes over it: it returns the row `D L` with
no swap, which `is_sorted` rejects, while `sort_left_to_right` sorts the same row. -/
theorem sort_lawnmower_dark_light_unsorted :
    (disk_state.new 2 1).bind (fun s => s.swap 0) = some ⟨[DISK_DARK, DISK_LIGHT]⟩ ∧
    disk_state.is_alternating ⟨[DISK_DARK, DISK_LIGHT]⟩ = some true ∧
    sort_lawnmower ⟨[DISK_DARK, DISK_LIGHT]⟩ = some ⟨⟨[DISK_DARK, DISK_LIGHT]⟩, 0⟩ ∧
    disk_state.is_sorted ⟨[DISK_DARK, DISK_LIGHT]⟩ = some false ∧
    sort_left_to_right ⟨[DISK_DARK, DISK_LIGHT]⟩ = some ⟨⟨[DISK_LIGHT, DISK_DARK]⟩, 1⟩ := by
  decide

/-- C3, as amended: take `k ≥ 1` for which the vector of `2 * k` disks can be built,
that is `2 * k` is at most `max_size()` and at most the capacity.  Then `new(k)` is a
row of `n = 2 * k` disks and `sort_left_to_right` returns on it the swap count
`(n/2) * (n/2 - 1) / 2` reduced modulo `2^32`, the range of the `unsigned` counter; for
`k ≤ 92682` that is the exact value. -/
theorem sort_left_to_right_new_swap_count (capacity k : Nat) (h1 : 1 ≤ k)
    (h2 : 2 * k ≤ MAX_SIZE) (h3 : 2 * k ≤ capacity) :
    ∃ r res, disk_state.new capacity k = some r ∧ r.total_count = 2 * k ∧
      sort_left_to_right r = some res ∧
      res.swap_count = ((r.total_count / 2) * (r.total_count / 2 - 1) / 2) % UINT_MOD ∧
      (k ≤ 92682 →
        res.swap_count = (r.total_count / 2) * (r.total_count / 2 - 1) / 2) := by
  obtain ⟨m, rfl⟩ : ∃ m, k = m + 1 := ⟨k - 1, by omega⟩
  have hn : (disk_state.mk (pattern DISK_LIGHT DISK_DARK 1 m 1)).total_count = 2 * (m + 1) := by
    simp only [disk_state.total_count, pattern_length]
    omega
  have hc : (m + 1) * (m + 1 - 1) = m * (m + 1) := by
    rw [Nat.add_sub_cancel, Nat.mul_comm]
  refine ⟨_, _, new_light capacity m h2 h3, hn, sort_left_to_right_light m, ?_, ?_⟩
  · rw [hn, show 2 * (m + 1) / 2 = m + 1 by omega, hc]
    rfl
  · intro hk
    have hlt := small_triangle (m + 1) hk
    rw [hn, show 2 * (m + 1) / 2 = m + 1 by omega]
    rw [hc] at hlt ⊢
    exact Nat.mod_eq_of_lt hlt

theorem sort_left_to_right_new_swap_count_witness :
    ∃ r res, disk_state.new 6 3 = some r ∧ r.total_count = 2 * 3 ∧
      sort_left_to_right r = some res ∧
      res.swap_count = ((r.total_count / 2) * (r.total_count / 2 - 1) / 2) % UINT_MOD ∧
      (3 ≤ 92682 →
        res.swap_count = (r.total_count / 2) * (r.total_count / 2 - 1) / 2) :=
  sort_left_to_right_new_swap_count 6 3 (by decide) (by decide) (by decide)

/-- C3, counterexample: `new(92683)`, built where 185366 disks can be allocated, is a row
of `n = 185366` disks, on which `(n/2) * (n/2 - 1) / 2 = 4295022903`, but
`sort_left_to_right` returns the swap count `55607`: the `unsigned` counter has wrapped.
And `new(2^60)` returns no row at all, since `2^61` disks are more than `max_size()`. -/
theorem sort_left_to_right_swap_count_wraps :
    disk_state.new 185366 92683 = some big_row ∧ big_row.total_count = 2 * 92683 ∧
    (sort_left_to_right big_row).map sorted_disks.swap_count = some 55607 ∧
    (big_row.total_count / 2) * (big_row.total_count / 2 - 1) / 2 = 4295022903 ∧
    disk_state.new MAX_SIZE (2 ^ 60) = none := by
  refine ⟨new_big_row, big_row_total_count, ?_, ?_, by decide⟩
  · rw [big_row_eq, sort_left_to_right_light 92682]
    simp only [Option.map_some', sorted_disks.swap_count, UINT_MOD]
    norm_num
  · rw [big_row_total_count]

/-- C4, as amended: take `k ≥ 1` for which the vector of `2 * k` disks can be built,
that is `2 * k` is at most `max_size()` and at most the capacity.  Then `sort_lawnmower`
returns on `new(k)` a row that passes `is_sorted` and the swap count
`(n/2) * (n/2 - 1) / 2` reduced modulo `2^32` (the exact value for `k ≤ 92682`); it is
the very result of `sort_left_to_right`. -/
theorem sort_lawnmower_new_result (capacity k : Nat) (h1 : 1 ≤ k)
    (h2 : 2 * k ≤ MAX_SIZE) (h3 : 2 * k ≤ capacity) :
    ∃ r res, disk_state.new capacity k = some r ∧ r.total_count = 2 * k ∧
      sort_lawnmower r = some res ∧ res.after.is_sorted = some true ∧
      res.swap_count = ((r.total_count / 2) * (r.total_count / 2 - 1) / 2) % UINT_MOD ∧
      (k ≤ 92682 →
        res.swap_count = (r.total_count / 2) * (r.total_count / 2 - 1) / 2) ∧
      sort_left_to_right r = some res := by
  obtain ⟨m, rfl⟩ : ∃ m, k = m + 1 := ⟨k - 1, by omega⟩
  have hn : (disk_state.mk (pattern DISK_LIGHT DISK_DARK 1 m 1)).total_count = 2 * (m + 1) := by
    simp only [disk_state.total_count, pattern_length]
    omega
  have hc : (m + 1) * (m + 1 - 1) = m * (m + 1) := by
    rw [Nat.add_sub_cancel, Nat.mul_comm]
  refine ⟨_, _, new_light capacity m h2 h3, hn, sort_lawnmower_light m, ?_, ?_, ?_,
    sort_left_to_right_light m⟩
  · exact is_sorted_blocks (m + 1) (by omega)
  · rw [hn, show 2 * (m + 1) / 2 = m + 1 by omega, hc]
    rfl
  · intro hk
    have hlt := small_triangle (m + 1) hk
    rw [hn, show 2 * (m + 1) / 2 = m + 1 by omega]
    rw [hc] at hlt ⊢
    exact Nat.mod_eq_of_lt hlt

theorem sort_lawnmower_new_result_witness :
    ∃ r res, disk_state.new 6 3 = some r ∧ r.total_count = 2 * 3 ∧
      sort_lawnmower r = some res ∧ res.after.is_sorted = some true ∧
      res.swap_count = ((r.total_count / 2) * (r.total_count / 2 - 1) / 2) % UINT_MOD ∧
      (3 ≤ 92682 →
        res.swap_count = (r.total_count / 2) * (r.total_count / 2 - 1) / 2) ∧
      sort_left_to_right r = some res :=
  sort_lawnmower_new_result 6 3 (by decide) (by decide) (by decide)

/-- C4, counterexample: on `new(92683)`, a row of `n = 185366` disks built where that
many can be allocated, `sort_lawnmower` returns the swap count `55607` and not
`(n/2) * (n/2 - 1) / 2 = 4295022903`.  And on `new(2^60)` there is nothing to sort:
`2^61` disks are more than `max_size()` and the constructor returns no row. -/
theorem sort_lawnmower_swap_count_wraps :
    disk_state.new 185366 92683 = some big_row ∧
    (sort_lawnmower big_row).map sorted_disks.swap_count = some 55607 ∧
    (sort_lawnmower big_row).map sorted_disks.swap_count ≠
      some ((big_row.total_count / 2) * (big_row.total_count / 2 - 1) / 2) ∧
    (disk_state.new MAX_SIZE (2 ^ 60)).bind sort_lawnmower = none := by
  have h : (sort_lawnmower big_row).map sorted_disks.swap_count = some 55607 := by
    rw [big_row_eq, sort_lawnmower_light 92682]
    simp only [Option.map_some', sorted_disks.swap_count, UINT_MOD]
    norm_num
  refine ⟨new_big_row, h, ?_, by decide⟩
  rw [h, big_row_total_count]
  norm_num

/-- C5: on every alternating row of even length at least 2, each sorter returns a row
that is a permutation of the input: the same `total_count()` and, for each colour, the
same number of positions holding it. -/
theorem sorters_permute (r : disk_state) (heven : r.total_count % 2 = 0)
    (h2 : 2 ≤ r.total_count)
    (halt : r.is_alternating = some true) :
    ∃ res1 res2, sort_left_to_right r = some res1 ∧ sort_lawnmower r = some res2 ∧
      res1.after._colors.Perm r._colors ∧ res2.after._colors.Perm r._colors ∧
      res1.after.total_count = r.total_count ∧ res2.after.total_count = r.total_count ∧
      (∀ x, res1.after._colors.count x = r._colors.count x) ∧
      (∀ x, res2.after._colors.count x = r._colors.count x) := by
  obtain ⟨res1, hres1, _, hp1⟩ := left_to_right_total r heven h2 halt
  obtain ⟨res2, hres2, hp2, _⟩ := lawnmower_total r heven h2 halt
  exact ⟨res1, res2, hres1, hres2, hp1, hp2, hp1.length_eq, hp2.length_eq,
    fun x => hp1.count_eq x, fun x => hp2.count_eq x⟩

theorem sorters_permute_witness :
    ∃ res1 res2,
      sort_left_to_right ⟨[DISK_DARK, DISK_LIGHT, DISK_DARK, DISK_LIGHT]⟩ = some res1 ∧
      sort_lawnmower ⟨[DISK_DARK, DISK_LIGHT, DISK_DARK, DISK_LIGHT]⟩ = some res2 ∧
      res1.after._colors.Perm [DISK_DARK, DISK_LIGHT, DISK_DARK, DISK_LIGHT] ∧
      res2.after._colors.Perm [DISK_DARK, DISK_LIGHT, DISK_DARK, DISK_LIGHT] ∧
      res1.after.total_count = 4 ∧ res2.after.total_count = 4 ∧
      (∀ x, res1.after._colors.count x =
        [DISK_DARK, DISK_LIGHT, DISK_DARK, DISK_LIGHT].count x) ∧
      (∀ x, res2.after._colors.count x =
        [DISK_DARK, DISK_LIGHT, DISK_DARK, DISK_LIGHT].count x) :=
  sorters_permute ⟨[DISK_DARK, DISK_LIGHT, DISK_DARK, DISK_LIGHT]⟩
    (by decide) (by decide) (by decide)

/-- C6, as amended: take a row reachable from `new(k)` by swaps that passes `is_sorted`.
If it has two disks (it is then the row `L D`), both sorters return it unchanged with swap
count 0.  If it has more than two disks, `is_alternating` is false on it and both sorters
fail their precondition assertion. -/
theorem sorters_on_sorted_row (k : Nat) (s : disk_state) (hr : reachable k s)
    (hs : s.is_sorted = some true) :
    (s.total_count = 2 →
      sort_left_to_right s = some ⟨s, 0⟩ ∧ sort_lawnmower s = some ⟨s, 0⟩) ∧
    (s.total_count ≠ 2 →
      s.is_alternating = some false ∧ sort_left_to_right s = none ∧
        sort_lawnmower s = none) := by
  obtain ⟨hk, hlen⟩ := reachable_shape k s hr
  have hlt : k % 2 ^ 63 < 2 ^ 63 := Nat.mod_lt _ (by norm_num)
  obtain ⟨l⟩ := s
  simp only [disk_state.total_count] at hlen
  obtain ⟨_, hl⟩ := is_sorted_shape l (k % 2 ^ 63) hlen hs
  subst hl
  simp only [disk_state.total_count, pattern_length]
  constructor
  · intro h2
    have h1 : k % 2 ^ 63 = 1 := by omega
    rw [h1]
    decide
  · intro h2
    obtain ⟨m, hm⟩ : ∃ m, k % 2 ^ 63 = m + 2 := ⟨k % 2 ^ 63 - 2, by omega⟩
    rw [hm]
    have ha := is_alternating_blocks m
    exact ⟨ha, sorters_none_of_not_alternating _ ha⟩

theorem sorters_on_sorted_row_witness :
    ((disk_state.mk [DISK_LIGHT, DISK_DARK]).total_count = 2 →
      sort_left_to_right ⟨[DISK_LIGHT, DISK_DARK]⟩ = some ⟨⟨[DISK_LIGHT, DISK_DARK]⟩, 0⟩ ∧
      sort_lawnmower ⟨[DISK_LIGHT, DISK_DARK]⟩ = some ⟨⟨[DISK_LIGHT, DISK_DARK]⟩, 0⟩) ∧
    ((disk_state.mk [DISK_LIGHT, DISK_DARK]).total_count ≠ 2 →
      disk_state.is_alternating ⟨[DISK_LIGHT, DISK_DARK]⟩ = some false ∧
      sort_left_to_right ⟨[DISK_LIGHT, DISK_DARK]⟩ = none ∧
      sort_lawnmower ⟨[DISK_LIGHT, DISK_DARK]⟩ = none) :=
  sorters_on_sorted_row 1 ⟨[DISK_LIGHT, DISK_DARK]⟩ (reachable.init _ 2 (by decide)) (by decide)

/-- C6, counterexample: the row `L L D D` is what `sort_left_to_right` returns on
`new(2)`, it is reachable from `new(2)` by `swap(1)` and it passes `is_sorted`, but both
sorters fail on it: it does not pass `is_alternating`. -/
theorem sorters_fail_on_sorted_row :
    reachable 2 ⟨[DISK_LIGHT, DISK_LIGHT, DISK_DARK, DISK_DARK]⟩ ∧
    (disk_state.new 4 2).bind sort_left_to_right =
      some ⟨⟨[DISK_LIGHT, DISK_LIGHT, DISK_DARK, DISK_DARK]⟩, 1⟩ ∧
    disk_state.is_sorted ⟨[DISK_LIGHT, DISK_LIGHT, DISK_DARK, DISK_DARK]⟩ = some true ∧
    sort_left_to_right ⟨[DISK_LIGHT, DISK_LIGHT, DISK_DARK, DISK_DARK]⟩ = none ∧
    sort_lawnmower ⟨[DISK_LIGHT, DISK_LIGHT, DISK_DARK, DISK_DARK]⟩ = none :=
  ⟨reachable.step ⟨[DISK_LIGHT, DISK_DARK, DISK_LIGHT, DISK_DARK]⟩ _ 1
      (reachable.init _ 4 (by decide)) (by decide),
    by decide, by decide, by decide, by decide⟩

/-- C7: on a row of even length at least 2, each sorter fails exactly when
`is_alternating` is false; `is_alternating` itself returns, and when it is true both
sorters run to the end and return a result, so every `get` and `swap` of the loops has
valid indices. -/
theorem sorters_fail_iff (r : disk_state) (heven : r.total_count % 2 = 0)
    (h2 : 2 ≤ r.total_count) :
    (sort_left_to_right r = none ↔ r.is_alternating = some false) ∧
    (sort_lawnmower r = none ↔ r.is_alternating = some false) ∧
    (r.is_alternating = some true →
      (∃ res, sort_left_to_right r = some res) ∧ (∃ res, sort_lawnmower r = some res)) := by
  have hsome : ∃ b, r.is_alternating = some b :=
    ⟨alternates r._colors, is_alternating_eq r._colors (by
      simp only [disk_state.total_count] at h2; omega)⟩
  have htrue : r.is_alternating = some true →
      (∃ res, sort_left_to_right r = some res) ∧ (∃ res, sort_lawnmower r = some res) := by
    intro halt
    obtain ⟨res1, h1, _⟩ := left_to_right_total r heven h2 halt
    obtain ⟨res2, h3, _⟩ := lawnmower_total r heven h2 halt
    exact ⟨⟨res1, h1⟩, ⟨res2, h3⟩⟩
  obtain ⟨b, hb⟩ := hsome
  refine ⟨⟨?_, fun h => (sorters_none_of_not_alternating r h).1⟩,
    ⟨?_, fun h => (sorters_none_of_not_alternating r h).2⟩, htrue⟩
  · intro hnone
    cases b with
    | false => exact hb
    | true =>
      obtain ⟨⟨res, hres⟩, _⟩ := htrue hb
      rw [hres] at hnone
      exact absurd hnone (by simp)
  · intro hnone
    cases b with
    | false => exact hb
    | true =>
      obtain ⟨_, ⟨res, hres⟩⟩ := htrue hb
      rw [hres] at hnone
      exact absurd hnone (by simp)

theorem sorters_fail_iff_witness :
    (sort_left_to_right ⟨[DISK_LIGHT, DISK_LIGHT, DISK_DARK, DISK_LIGHT]⟩ = none ↔
      disk_state.is_alternating ⟨[DISK_LIGHT, DISK_LIGHT, DISK_DARK, DISK_LIGHT]⟩ =
        some false) ∧
    (sort_lawnmower ⟨[DISK_LIGHT, DISK_LIGHT, DISK_DARK, DISK_LIGHT]⟩ = none ↔
      disk_state.is_alternating ⟨[DISK_LIGHT, DISK_LIGHT, DISK_DARK, DISK_LIGHT]⟩ =
        some false) ∧
    (disk_state.is_alternating ⟨[DISK_LIGHT, DISK_LIGHT, DISK_DARK, DISK_LIGHT]⟩ = some true →
      (∃ res, sort_left_to_right ⟨[DISK_LIGHT, DISK_LIGHT, DISK_DARK, DISK_LIGHT]⟩ = some res) ∧
      (∃ res, sort_lawnmower ⟨[DISK_LIGHT, DISK_LIGHT, DISK_DARK, DISK_LIGHT]⟩ = some res)) :=
  sorters_fail_iff ⟨[DISK_LIGHT, DISK_LIGHT, DISK_DARK, DISK_LIGHT]⟩
    (by decide) (by decide)

/-- C8, as amended: on every alternating row of even length at least 2 the swap count
returned by `sort_left_to_right` is the number of inversions of the input (pairs `i < j`
with dark at `i` and light at `j`) reduced modulo `2^32`, the range of the `unsigned`
counter; it is the number of inversions itself whenever that is below `2^32`. -/
theorem sort_left_to_right_counts_inversions (r : disk_state)
    (heven : r.total_count % 2 = 0) (h2 : 2 ≤ r.total_count)
    (halt : r.is_alternating = some true) :
    ∃ res, sort_left_to_right r = some res ∧
      res.swap_count = inversions r._colors % UINT_MOD ∧
      (inversions r._colors < UINT_MOD → res.swap_count = inversions r._colors) := by
  have key : ∃ res, sort_left_to_right r = some res ∧
      res.swap_count = inversions r._colors % UINT_MOD := by
    obtain ⟨m, hm, hr | hr⟩ := alternating_cases r heven h2 halt
    · subst hr
      refine ⟨_, sort_left_to_right_light m, ?_⟩
      have hi := inversions_light_first (m + 1)
      have hinv : inversions (pattern DISK_LIGHT DISK_DARK 1 m 1) = m * (m + 1) / 2 := by
        rw [← pairs_eq_pattern]
        have e : (m + 1) * (m + 1 + 1) = m * (m + 1) + 2 * (m + 1) := by ring
        omega
      simp only [sorted_disks.swap_count, hinv]
    · subst hr
      refine ⟨_, sort_left_to_right_dark m, ?_⟩
      have hi := inversions_dark_first (m + 1)
      rw [show m + 1 + 1 = m + 2 from rfl] at hi
      have hinv : inversions (pattern DISK_LIGHT DISK_DARK 0 (m + 1) 0) =
          (m + 1) * (m + 2) / 2 := by
        rw [← pairs_eq_pattern_dark]
        omega
      simp only [sorted_disks.swap_count, hinv]
  obtain ⟨res, hres, hcount⟩ := key
  exact ⟨res, hres, hcount, fun hlt => by rw [hcount, Nat.mod_eq_of_lt hlt]⟩

theorem sort_left_to_right_counts_inversions_witness :
    ∃ res, sort_left_to_right ⟨[DISK_DARK, DISK_LIGHT, DISK_DARK, DISK_LIGHT]⟩ = some res ∧
      res.swap_count = inversions [DISK_DARK, DISK_LIGHT, DISK_DARK, DISK_LIGHT] % UINT_MOD ∧
      (inversions [DISK_DARK, DISK_LIGHT, DISK_DARK, DISK_LIGHT] < UINT_MOD →
        res.swap_count = inversions [DISK_DARK, DISK_LIGHT, DISK_DARK, DISK_LIGHT]) :=
  sort_left_to_right_counts_inversions ⟨[DISK_DARK, DISK_LIGHT, DISK_DARK, DISK_LIGHT]⟩
    (by decide) (by decide) (by decide)

/-- C8, counterexample: the alternating row of 185366 disks built by `new(92683)` has
4295022903 inversions, and `sort_left_to_right` returns the swap count 55607 on it. -/
theorem sort_left_to_right_inversions_wrap :
    big_row.total_count % 2 = 0 ∧ 2 ≤ big_row.total_count ∧
    big_row.is_alternating = some true ∧
    inversions big_row._colors = 4295022903 ∧
    (sort_left_to_right big_row).map sorted_disks.swap_count = some 55607 := by
  refine ⟨by rw [big_row_total_count], by rw [big_row_total_count]; norm_num,
    big_row_alternating, ?_, ?_⟩
  · have hi := inversions_light_first 92683
    show inversions (pairs DISK_LIGHT DISK_DARK 92683) = 4295022903
    omega
  · rw [big_row_eq, sort_left_to_right_light 92682]
    simp only [Option.map_some', sorted_disks.swap_count, UINT_MOD]
    norm_num

/-- C9, as amended: take `k ≥ 1` for which the vector of `2 * k` disks can be built,
that is `2 * k` is at most `max_size()` and at most the capacity.  Then the constructor
returns a row with `total_count() = 2 * k` in which `get(i)` is light at every even
index `i < 2 * k` and dark at every odd one. -/
theorem new_layout (capacity k : Nat) (h1 : 1 ≤ k) (h2 : 2 * k ≤ MAX_SIZE)
    (h3 : 2 * k ≤ capacity) :
    ∃ r, disk_state.new capacity k = some r ∧ r.total_count = 2 * k ∧
      ∀ i, i < 2 * k → r.get i = some (if i % 2 = 0 then DISK_LIGHT else DISK_DARK) := by
  have hlt : k < 2 ^ 63 := by unfold MAX_SIZE at h2; omega
  refine ⟨⟨pairs DISK_LIGHT DISK_DARK k⟩, ?_, ?_, ?_⟩
  · rw [new_eq, Nat.mod_eq_of_lt hlt, if_pos ⟨by omega, h2, h3⟩]
  · simp only [disk_state.total_count, pairs_length]
  · intro i hi
    rw [get_eq, getElem_pairs _ _ k i hi]

theorem new_layout_witness :
    ∃ r, disk_state.new 6 3 = some r ∧ r.total_count = 2 * 3 ∧
      ∀ i, i < 2 * 3 → r.get i = some (if i % 2 = 0 then DISK_LIGHT else DISK_DARK) :=
  new_layout 6 3 (by decide) (by decide) (by decide)

/-- C9, counterexample: `light_count * 2` is computed in `size_t`, so `new(2^63 + 1)`
is the row `L D` of 2 disks and not a row of `2 * (2^63 + 1)` disks; and `new(2^60)`
is no row at all, since `2^61` disks are more than `max_size()`. -/
theorem new_wraps :
    disk_state.new 2 (2 ^ 63 + 1) = some ⟨[DISK_LIGHT, DISK_DARK]⟩ ∧
    (disk_state.mk [DISK_LIGHT, DISK_DARK]).total_count ≠ 2 * (2 ^ 63 + 1) ∧
    disk_state.new MAX_SIZE (2 ^ 60) = none := by
  decide

/-- C10, as amended: on every row that `new(n)` returns `is_alternating` is true; and
`new(n)` returns a row for every `n ≥ 1` for which the vector of `2 * n` disks can be
built, that is `2 * n` is at most `max_size()` and at most the capacity. -/
theorem new_is_alternating (capacity n : Nat) :
    (∀ r, disk_state.new capacity n = some r → r.is_alternating = some true) ∧
    (1 ≤ n → 2 * n ≤ MAX_SIZE → 2 * n ≤ capacity →
      ∃ r, disk_state.new capacity n = some r ∧ r.is_alternating = some true) := by
  have hall : ∀ r, disk_state.new capacity n = some r → r.is_alternating = some true := by
    intro r hr
    obtain ⟨hk, _, _, rfl⟩ := new_some capacity n r hr
    obtain ⟨m, hm⟩ : ∃ m, n % 2 ^ 63 = m + 1 := ⟨n % 2 ^ 63 - 1, by omega⟩
    rw [hm, pairs_eq_pattern]
    exact is_alternating_light m
  refine ⟨hall, fun h1 h2 h3 => ?_⟩
  obtain ⟨m, rfl⟩ : ∃ m, n = m + 1 := ⟨n - 1, by omega⟩
  exact ⟨_, new_light capacity m h2 h3, hall _ (new_light capacity m h2 h3)⟩

theorem new_is_alternating_witness :
    ∃ r, disk_state.new 6 3 = some r ∧ r.is_alternating = some true :=
  (new_is_alternating 6 3).2 (by decide) (by decide) (by decide)

/-- C10, counterexample: for `n = 2^63` the product `n * 2` wraps to zero, the assertion
`dark_count() > 0` of the constructor fails and there is no row to call `is_alternating`
on, however much memory there is. -/
theorem new_fails_at_half_range :
    1 ≤ 2 ^ 63 ∧ disk_state.new MAX_SIZE (2 ^ 63) = none ∧
    (disk_state.new MAX_SIZE (2 ^ 63)).bind disk_state.is_alternating ≠ some true := by
  decide

/-- C11: on a non-empty row `is_alternating` returns, and it returns true exactly when
the colours at `i` and `i + 1` differ for every index `i` with `i + 1 < total_count()`,
that is for `0 ≤ i ≤ total_count() - 2`. -/
theorem is_alternating_iff_neighbours (r : disk_state) (h : 1 ≤ r.total_count) :
    (r.is_alternating = some true ↔
      ∀ i, i + 1 < r.total_count → r.get i ≠ r.get (i + 1)) ∧
    (r.is_alternating = some true ∨ r.is_alternating = some false) := by
  obtain ⟨l⟩ := r
  simp only [disk_state.total_count] at h
  rw [is_alternating_eq l h]
  simp only [disk_state.total_count, get_eq, Option.some.injEq]
  refine ⟨alternates_iff l, ?_⟩
  cases alternates l
  · right; rfl
  · left; rfl

theorem is_alternating_iff_neighbours_witness :
    (disk_state.is_alternating ⟨[DISK_DARK, DISK_LIGHT, DISK_LIGHT]⟩ = some true ↔
      ∀ i, i + 1 < (disk_state.mk [DISK_DARK, DISK_LIGHT, DISK_LIGHT]).total_count →
        (disk_state.mk [DISK_DARK, DISK_LIGHT, DISK_LIGHT]).get i ≠
          (disk_state.mk [DISK_DARK, DISK_LIGHT, DISK_LIGHT]).get (i + 1)) ∧
    (disk_state.is_alternating ⟨[DISK_DARK, DISK_LIGHT, DISK_LIGHT]⟩ = some true ∨
      disk_state.is_alternating ⟨[DISK_DARK, DISK_LIGHT, DISK_LIGHT]⟩ = some false) :=
  is_alternating_iff_neighbours ⟨[DISK_DARK, DISK_LIGHT, DISK_LIGHT]⟩ (by decide)

/-- C12: on the row `D L` (built by `new(1)` and `swap(0)`) `is_alternating` returns
true although index 0 holds dark and index 1 holds light, the opposite of the format of
the header comment; on the row `L D` of that format it returns true as well. -/
theorem is_alternating_accepts_dark_first :
    (disk_state.new 2 1).bind (fun s => s.swap 0) = some ⟨[DISK_DARK, DISK_LIGHT]⟩ ∧
    disk_state.is_alternating ⟨[DISK_DARK, DISK_LIGHT]⟩ = some true ∧
    (disk_state.mk [DISK_DARK, DISK_LIGHT]).get 0 = some DISK_DARK ∧
    (disk_state.mk [DISK_DARK, DISK_LIGHT]).get 1 = some DISK_LIGHT ∧
    disk_state.is_alternating ⟨[DISK_LIGHT, DISK_DARK]⟩ = some true := by
  decide

/-- C13: on a row of `n ≥ 2` disks `is_sorted` returns, and it returns true exactly when
every index below `n / 2` holds light and every index from `n / 2` to `n - 1` holds
dark. -/
theorem is_sorted_iff_halves (r : disk_state) (h : 2 ≤ r.total_count) :
    (r.is_sorted = some true ↔
      (∀ i, i < r.total_count / 2 → r.get i = some DISK_LIGHT) ∧
      (∀ i, r.total_count / 2 ≤ i → i < r.total_count → r.get i = some DISK_DARK)) ∧
    (r.is_sorted = some true ∨ r.is_sorted = some false) := by
  obtain ⟨l⟩ := r
  simp only [disk_state.total_count] at h
  have hpos : decide (0 < l.length) = true := by simp; omega
  rw [is_sorted_eq l, hpos]
  constructor
  · simp only [disk_state.total_count, get_eq, Option.some.injEq, Bool.true_and,
      Bool.and_eq_true, all_color_take DISK_LIGHT l (l.length / 2) (by omega),
      all_color_drop DISK_DARK l (l.length / 2)]
  · cases true && all_color DISK_LIGHT (l.take (l.length / 2)) &&
      all_color DISK_DARK (l.drop (l.length / 2))
    · right; rfl
    · left; rfl

theorem is_sorted_iff_halves_witness :
    (disk_state.is_sorted ⟨[DISK_LIGHT, DISK_DARK, DISK_DARK]⟩ = some true ↔
      (∀ i, i < (disk_state.mk [DISK_LIGHT, DISK_DARK, DISK_DARK]).total_count / 2 →
        (disk_state.mk [DISK_LIGHT, DISK_DARK, DISK_DARK]).get i = some DISK_LIGHT) ∧
      (∀ i, (disk_state.mk [DISK_LIGHT, DISK_DARK, DISK_DARK]).total_count / 2 ≤ i →
        i < (disk_state.mk [DISK_LIGHT, DISK_DARK, DISK_DARK]).total_count →
        (disk_state.mk [DISK_LIGHT, DISK_DARK, DISK_DARK]).get i = some DISK_DARK)) ∧
    (disk_state.is_sorted ⟨[DISK_LIGHT, DISK_DARK, DISK_DARK]⟩ = some true ∨
      disk_state.is_sorted ⟨[DISK_LIGHT, DISK_DARK, DISK_DARK]⟩ = some false) :=
  is_sorted_iff_halves ⟨[DISK_LIGHT, DISK_DARK, DISK_DARK]⟩ (by decide)

/-- C14: when `left_index + 1 < total_count()`, `swap(left_index)` succeeds; afterwards
the colour at `left_index` is the old colour at `left_index + 1`, the colour at
`left_index + 1` is the old colour at `left_index`, every other index holds its old
colour, and `total_count()` is unchanged. -/
theorem swap_frame (s : disk_state) (left_index : Nat)
    (h : left_index + 1 < s.total_count) :
    ∃ t, s.swap left_index = some t ∧
      t.get left_index = s.get (left_index + 1) ∧
      t.get (left_index + 1) = s.get left_index ∧
      (∀ j, j ≠ left_index → j ≠ left_index + 1 → t.get j = s.get j) ∧
      t.total_count = s.total_count := by
  obtain ⟨l⟩ := s
  simp only [disk_state.total_count] at h
  obtain ⟨a, b, ha, hb, hs⟩ := swap_eq l left_index h
  refine ⟨_, hs, ?_, ?_, ?_, ?_⟩
  · rw [get_eq, get_eq, hb, List.getElem?_set_ne (by omega), List.getElem?_set_eq_of_lt _ (by omega)]
  · rw [get_eq, get_eq, ha, List.getElem?_set_eq_of_lt _ (by simp; omega)]
  · intro j h1 h2
    rw [get_eq, get_eq, List.getElem?_set_ne (by omega), List.getElem?_set_ne (by omega)]
  · simp [disk_state.total_count]

theorem swap_frame_witness :
    ∃ t, (disk_state.mk [DISK_LIGHT, DISK_DARK, DISK_LIGHT, DISK_DARK]).swap 1 = some t ∧
      t.get 1 = (disk_state.mk [DISK_LIGHT, DISK_DARK, DISK_LIGHT, DISK_DARK]).get (1 + 1) ∧
      t.get (1 + 1) = (disk_state.mk [DISK_LIGHT, DISK_DARK, DISK_LIGHT, DISK_DARK]).get 1 ∧
      (∀ j, j ≠ 1 → j ≠ 1 + 1 →
        t.get j = (disk_state.mk [DISK_LIGHT, DISK_DARK, DISK_LIGHT, DISK_DARK]).get j) ∧
      t.total_count = (disk_state.mk [DISK_LIGHT, DISK_DARK, DISK_LIGHT, DISK_DARK]).total_count :=
  swap_frame ⟨[DISK_LIGHT, DISK_DARK, DISK_LIGHT, DISK_DARK]⟩ 1 (by decide)

/-- C15: `swap(left_index)` fails exactly when `left_index` or `left_index + 1` is not a
valid index, that is when `left_index + 1 ≥ total_count()`; in particular
`swap(total_count() - 1)` fails on every row, the subtraction being that of `size_t`. -/
theorem swap_fails_iff (s : disk_state) (left_index : Nat) :
    (s.swap left_index = none ↔
      (s.is_index left_index = false ∨ s.is_index (left_index + 1) = false)) ∧
    (s.swap left_index = none ↔ s.total_count ≤ left_index + 1) ∧
    s.swap (size_sub s.total_count 1) = none := by
  refine ⟨?_, swap_none_iff s left_index, ?_⟩
  · rw [swap_none_iff]
    simp only [disk_state.is_index, decide_eq_false_iff_not]
    omega
  · rw [swap_none_iff]
    unfold size_sub
    split <;> omega

/-- C16, as amended: for a `light_count` in the range of `size_t`, the constructor
fails exactly in these cases: `light_count` is `0` or `2^63`, where `light_count * 2` is
zero modulo `2^64` and the assertion fails; or the vector of `light_count * 2 mod 2^64`
disks cannot be built, being larger than `max_size()` or than the capacity.  So it
returns a row for every `light_count ≥ 1` whose `2 * light_count` disks can be built. -/
theorem new_fails_iff (capacity light_count : Nat) (h : light_count < 2 ^ 64) :
    (disk_state.new capacity light_count = none ↔
      light_count = 0 ∨ light_count = 2 ^ 63 ∨
        MAX_SIZE < light_count * 2 % SIZE_MOD ∨ capacity < light_count * 2 % SIZE_MOD) ∧
    (1 ≤ light_count → 2 * light_count ≤ MAX_SIZE → 2 * light_count ≤ capacity →
      ∃ r, disk_state.new capacity light_count = some r) := by
  have hsize : light_count * 2 % SIZE_MOD = 2 * (light_count % 2 ^ 63) := by
    unfold SIZE_MOD
    omega
  constructor
  · rw [new_eq, hsize]
    by_cases hk : 0 < light_count % 2 ^ 63 ∧ 2 * (light_count % 2 ^ 63) ≤ MAX_SIZE ∧
        2 * (light_count % 2 ^ 63) ≤ capacity
    · rw [if_pos hk]
      refine ⟨fun h0 => absurd h0 (by simp), fun h0 => ?_⟩
      omega
    · rw [if_neg hk]
      refine ⟨fun _ => ?_, fun _ => rfl⟩
      omega
  · intro h1 h2 h3
    obtain ⟨m, rfl⟩ : ∃ m, light_count = m + 1 := ⟨light_count - 1, by omega⟩
    exact ⟨_, new_light capacity m h2 h3⟩

theorem new_fails_iff_witness :
    (disk_state.new 10 5 = none ↔
      5 = 0 ∨ 5 = 2 ^ 63 ∨ MAX_SIZE < 5 * 2 % SIZE_MOD ∨ 10 < 5 * 2 % SIZE_MOD) ∧
    (1 ≤ 5 → 2 * 5 ≤ MAX_SIZE → 2 * 5 ≤ 10 → ∃ r, disk_state.new 10 5 = some r) :=
  new_fails_iff 10 5 (by decide)

/-- C16, counterexample: `2^63` and `2^60` are not zero, yet `new(2^63)` and `new(2^60)`
fail however much memory there is: for `2^63` the vector is built with
`2^63 * 2 mod 2^64 = 0` disks and the assertion `dark_count() > 0` does not hold, and
for `2^60` the `2^61` disks are more than `max_size()`. -/
theorem new_fails_on_nonzero :
    2 ^ 63 ≠ 0 ∧ 2 ^ 63 * 2 % SIZE_MOD = 0 ∧ disk_state.new MAX_SIZE (2 ^ 63) = none ∧
    2 ^ 60 ≠ 0 ∧ disk_state.new MAX_SIZE (2 ^ 60) = none := by
  decide

/-- C17, as amended: for `k < 2^63`, every row reachable from `new(k)` by successful
swaps (there is one only when `k ≥ 1`) has `total_count() = 2 * k`, and `light_count()`
and `dark_count()` are the numbers of positions that hold light and that hold dark. -/
theorem reachable_counts (k : Nat) (s : disk_state) (h2 : k < 2 ^ 63)
    (hr : reachable k s) :
    s.total_count = 2 * k ∧
    s.light_count = s._colors.count DISK_LIGHT ∧
    s.dark_count = s._colors.count DISK_DARK := by
  have hp := reachable_perm k s hr
  rw [Nat.mod_eq_of_lt h2] at hp
  have hlen : s.total_count = 2 * k := by
    unfold disk_state.total_count
    rw [hp.length_eq, pairs_length]
  refine ⟨hlen, ?_, ?_⟩
  · unfold disk_state.light_count disk_state.dark_count
    rw [hlen, hp.count_eq, count_pairs]
    simp
  · unfold disk_state.dark_count
    rw [hlen, hp.count_eq, count_pairs]
    simp

theorem reachable_counts_witness :
    (disk_state.mk [DISK_LIGHT, DISK_LIGHT, DISK_DARK, DISK_DARK]).total_count = 2 * 2 ∧
    (disk_state.mk [DISK_LIGHT, DISK_LIGHT, DISK_DARK, DISK_DARK]).light_count =
      [DISK_LIGHT, DISK_LIGHT, DISK_DARK, DISK_DARK].count DISK_LIGHT ∧
    (disk_state.mk [DISK_LIGHT, DISK_LIGHT, DISK_DARK, DISK_DARK]).dark_count =
      [DISK_LIGHT, DISK_LIGHT, DISK_DARK, DISK_DARK].count DISK_DARK :=
  reachable_counts 2 ⟨[DISK_LIGHT, DISK_LIGHT, DISK_DARK, DISK_DARK]⟩ (by decide)
    (reachable.step ⟨[DISK_LIGHT, DISK_DARK, DISK_LIGHT, DISK_DARK]⟩ _ 1
      (reachable.init _ 4 (by decide)) (by decide))

/-- C17, counterexample: the row `L D` is `new(2^63 + 1)`, so it is reachable from it,
and its `total_count()` is 2, not `2 * (2^63 + 1)`. -/
theorem reachable_wrapped_row :
    1 ≤ 2 ^ 63 + 1 ∧ reachable (2 ^ 63 + 1) ⟨[DISK_LIGHT, DISK_DARK]⟩ ∧
    (disk_state.mk [DISK_LIGHT, DISK_DARK]).total_count = 2 ∧
    (disk_state.mk [DISK_LIGHT, DISK_DARK]).total_count ≠ 2 * (2 ^ 63 + 1) :=
  ⟨by decide, reachable.init _ 2 (by decide), by decide, by decide⟩

/-- C18: on a row of `n ≥ 1` disks `to_string` is the letters of the colours in index
order joined by one space: its length is `2 * n - 1`, the character at position `2 * i`
is the letter of `get(i)`, and the character at position `2 * i + 1` is a space whenever
another letter follows. -/
theorem to_string_layout (r : disk_state) (h : 1 ≤ r.total_count) :
    r.to_string =
      String.intercalate " " (r._colors.map (fun c => String.singleton c.letter)) ∧
    r.to_string.length = 2 * r.total_count - 1 ∧
    (∀ i, i < r.total_count →
      (r.to_string.data[2 * i]?) = (r.get i).map disk_color.letter) ∧
    (∀ i, i + 1 < r.total_count → r.to_string.data[2 * i + 1]? = some ' ') := by
  obtain ⟨l⟩ := r
  match l, h with
  | c :: rest, _ =>
    rw [to_string_cons]
    refine ⟨?_, ?_, ?_, ?_⟩
    · simp only [List.map_cons, String.intercalate]
      rw [intercalate_go_data]
      simp [String.singleton]
    · simp only [String.length, List.length_cons, spaced_length, disk_state.total_count]
      omega
    · intro i hi
      rw [get_eq]
      cases i with
      | zero => simp
      | succ i =>
        rw [show 2 * (i + 1) = 2 * i + 1 + 1 by omega]
        simp only [List.getElem?_cons_succ]
        exact spaced_odd rest i
    · intro i hi
      simp only [List.getElem?_cons_succ]
      exact spaced_even rest i (by simpa [disk_state.total_count] using hi)

theorem to_string_layout_witness :
    (disk_state.mk [DISK_LIGHT, DISK_DARK, DISK_LIGHT, DISK_DARK]).to_string =
      String.intercalate " " ([DISK_LIGHT, DISK_DARK, DISK_LIGHT, DISK_DARK].map
        (fun c => String.singleton c.letter)) ∧
    (disk_state.mk [DISK_LIGHT, DISK_DARK, DISK_LIGHT, DISK_DARK]).to_string.length =
      2 * (disk_state.mk [DISK_LIGHT, DISK_DARK, DISK_LIGHT, DISK_DARK]).total_count - 1 ∧
    (∀ i, i < (disk_state.mk [DISK_LIGHT, DISK_DARK, DISK_LIGHT, DISK_DARK]).total_count →
      ((disk_state.mk [DISK_LIGHT, DISK_DARK, DISK_LIGHT, DISK_DARK]).to_string.data[2 * i]?) =
        ((disk_state.mk [DISK_LIGHT, DISK_DARK, DISK_LIGHT, DISK_DARK]).get i).map
          disk_color.letter) ∧
    (∀ i, i + 1 < (disk_state.mk [DISK_LIGHT, DISK_DARK, DISK_LIGHT, DISK_DARK]).total_count →
      (disk_state.mk [DISK_LIGHT, DISK_DARK, DISK_LIGHT, DISK_DARK]).to_string.data[2 * i + 1]? =
        some ' ') :=
  to_string_layout ⟨[DISK_LIGHT, DISK_DARK, DISK_LIGHT, DISK_DARK]⟩ (by decide)

/-- C20, as amended: on every row that `new(k)` returns, both sorters return, and they
return the same row and the same swap count; `new(k)` returns a row for every `k ≥ 1`
for which the vector of `2 * k` disks can be built.  When `new(k)` returns no row,
neither sorter has anything to return. -/
theorem sorters_agree_on_new (capacity k : Nat) :
    (∀ r, disk_state.new capacity k = some r →
      ∃ res1 res2, sort_left_to_right r = some res1 ∧ sort_lawnmower r = some res2 ∧
        res1.after = res2.after ∧ res1.swap_count = res2.swap_count) ∧
    (1 ≤ k → 2 * k ≤ MAX_SIZE → 2 * k ≤ capacity →
      ∃ r, disk_state.new capacity k = some r) ∧
    (disk_state.new capacity k).bind sort_left_to_right =
      (disk_state.new capacity k).bind sort_lawnmower := by
  have hall : ∀ r, disk_state.new capacity k = some r →
      ∃ res, sort_left_to_right r = some res ∧ sort_lawnmower r = some res := by
    intro r hr
    obtain ⟨hk, _, _, rfl⟩ := new_some capacity k r hr
    obtain ⟨m, hm⟩ : ∃ m, k % 2 ^ 63 = m + 1 := ⟨k % 2 ^ 63 - 1, by omega⟩
    rw [hm, pairs_eq_pattern]
    exact ⟨_, sort_left_to_right_light m, sort_lawnmower_light m⟩
  refine ⟨fun r hr => ?_, fun h1 h2 h3 => ?_, ?_⟩
  · obtain ⟨res, hl, hw⟩ := hall r hr
    exact ⟨res, res, hl, hw, rfl, rfl⟩
  · obtain ⟨m, rfl⟩ : ∃ m, k = m + 1 := ⟨k - 1, by omega⟩
    exact ⟨_, new_light capacity m h2 h3⟩
  · cases hnew : disk_state.new capacity k with
    | none => rfl
    | some r =>
      obtain ⟨res, hl, hw⟩ := hall r hnew
      simp only [Option.some_bind, hl, hw]

theorem sorters_agree_on_new_witness :
    ∃ res1 res2,
      sort_left_to_right
        ⟨[DISK_LIGHT, DISK_DARK, DISK_LIGHT, DISK_DARK, DISK_LIGHT, DISK_DARK]⟩ = some res1 ∧
      sort_lawnmower
        ⟨[DISK_LIGHT, DISK_DARK, DISK_LIGHT, DISK_DARK, DISK_LIGHT, DISK_DARK]⟩ = some res2 ∧
      res1.after = res2.after ∧ res1.swap_count = res2.swap_count :=
  (sorters_agree_on_new 6 3).1 _ (by decide)

/-- C20, counterexample: `new(2^63)` returns no row, however much memory there is, so
neither `sort_left_to_right(new(2^63))` nor `sort_lawnmower(new(2^63))` returns a row
or a swap count. -/
theorem sorters_return_nothing_at_half_range :
    1 ≤ 2 ^ 63 ∧ disk_state.new MAX_SIZE (2 ^ 63) = none ∧
    (disk_state.new MAX_SIZE (2 ^ 63)).bind sort_left_to_right = none ∧
    (disk_state.new MAX_SIZE (2 ^ 63)).bind sort_lawnmower = none := by
  decide
